import Mathlib

/-!
Verification of the documentation indexing / search engine of the
`ember-mcp` repository (`lib/documentation-service.js`,
`lib/deprecation-manager.js`) against its natural-language specification.

Strings are modelled as `List Char` (`Str`).  JavaScript string primitives
(`toLowerCase`, `split`, `includes`, `indexOf`, regex matching of literal
patterns) are given as executable Lean functions below; each definition's
doc comment names the source construct it embeds.
-/

/-- JavaScript strings, modelled as lists of characters. -/
abbrev Str := List Char

/-- Coerce a Lean string literal to `Str`. -/
def strL (s : String) : Str := s.data

/-- `s.toLowerCase()` (ASCII case mapping, which is all the engine relies on). -/
def toLowerStr (s : Str) : Str := s.map Char.toLower

/-- The character `{` (written via its code point to keep it out of string
literals). -/
def braceOpen : Char := Char.ofNat 123

/-- The character `}`. -/
def braceClose : Char := Char.ofNat 125

/-- `pat` occurs as a contiguous substring of `s` (the semantics of
JavaScript `s.includes(pat)`). -/
def IsSub (pat s : Str) : Prop := ∃ pre post : Str, s = pre ++ pat ++ post

/-- Fuel-driven worker for `countOcc`; the fuel only serves to make the
recursion structural (it is always called with enough fuel). -/
def countOccF : Nat → Str → Str → Nat
  | 0, _, _ => 0
  | _ + 1, _, [] => 0
  | f + 1, pat, c :: rest =>
    if pat.isPrefixOf (c :: rest) then
      1 + countOccF f pat (List.drop pat.length (c :: rest))
    else
      countOccF f pat rest

/-- Number of non-overlapping, leftmost occurrences of `pat` in `s`:
the semantics of `(s.match(new RegExp(pat, "g")) || []).length` for a
pattern without regular-expression metacharacters.  An empty pattern
matches at every position, as in JavaScript. -/
def countOcc (pat s : Str) : Nat :=
  if pat = [] then s.length + 1 else countOccF s.length pat s

/-- The fuel argument of `countOccF` is irrelevant once it reaches the
length of the searched string. -/
theorem countOccF_fuel (pat : Str) (hp : pat ≠ []) :
    ∀ f g s, s.length ≤ f → s.length ≤ g →
      countOccF f pat s = countOccF g pat s := by
  intro f
  induction f with
  | zero =>
    intro g s hf _
    have : s = [] := List.eq_nil_of_length_eq_zero (Nat.le_zero.mp hf)
    subst this
    cases g <;> rfl
  | succ f ih =>
    intro g s hf hg
    cases s with
    | nil => cases g <;> rfl
    | cons c rest =>
      cases g with
      | zero => exact absurd hg (by simp)
      | succ g =>
        simp only [countOccF]
        by_cases hpre : pat.isPrefixOf (c :: rest)
        · simp only [hpre, if_pos]
          have hlen : 1 ≤ pat.length := List.length_pos.mpr hp
          have hdrop : (List.drop pat.length (c :: rest)).length ≤ f := by
            simp only [List.length_drop, List.length_cons]
            simp only [List.length_cons] at hf
            omega
          have hdrop' : (List.drop pat.length (c :: rest)).length ≤ g := by
            simp only [List.length_drop, List.length_cons]
            simp only [List.length_cons] at hg
            omega
          congr 1
          exact ih g _ hdrop hdrop'
        · simp only [hpre, if_neg, Bool.false_eq_true, not_false_eq_true]
          have h1 : rest.length ≤ f := by
            simp only [List.length_cons] at hf; omega
          have h2 : rest.length ≤ g := by
            simp only [List.length_cons] at hg; omega
          exact ih g rest h1 h2

/-- Unfolding equation for `countOcc` on a nonempty string. -/
theorem countOcc_cons (pat : Str) (hp : pat ≠ []) (c : Char) (rest : Str) :
    countOcc pat (c :: rest) =
      if pat.isPrefixOf (c :: rest) then
        1 + countOcc pat (List.drop pat.length (c :: rest))
      else countOcc pat rest := by
  have hlen : 1 ≤ pat.length := List.length_pos.mpr hp
  simp only [countOcc, if_neg hp, List.length_cons, countOccF]
  by_cases hpre : pat.isPrefixOf (c :: rest)
  · simp only [hpre, if_pos]
    congr 1
    apply countOccF_fuel pat hp
    · simp only [List.length_drop, List.length_cons]; omega
    · exact Nat.le_refl _
  · simp [hpre]

/-- `countOcc` on the empty string. -/
theorem countOcc_nil (pat : Str) (hp : pat ≠ []) : countOcc pat [] = 0 := by
  simp [countOcc, hp, countOccF]

/-- Index of the first occurrence of `pat` in `s` (`s.indexOf(pat)`),
`none` when absent (JavaScript returns `-1`). -/
def indexOfSub (pat s : Str) : Option Nat :=
  if pat.isPrefixOf s then some 0
  else
    match s with
    | [] => if pat = [] then some 0 else none
    | _ :: rest => (indexOfSub pat rest).map (· + 1)

/-- `s.includes(pat)`, decidable substring test. -/
def containsSub (pat s : Str) : Bool := (indexOfSub pat s).isSome

/-- `s.trim()`: strip whitespace from both ends. -/
def trimStr (s : Str) : Str :=
  (s.dropWhile Char.isWhitespace).reverse.dropWhile Char.isWhitespace |>.reverse

/-- `text.split("\n")`: split at every newline, keeping empty pieces. -/
def splitLines : Str → List Str
  | [] => [[]]
  | c :: cs =>
    let r := splitLines cs
    if c = '\n' then [] :: r
    else
      match r with
      | [] => [[c]]
      | h :: t => (c :: h) :: t

/-- Worker for `splitWs`: `cur` is the (reversed) chunk being accumulated. -/
def splitWsGo : Str → Str → List Str
  | cur, [] => if cur = [] then [] else [cur.reverse]
  | cur, c :: cs =>
    if c.isWhitespace then
      if cur = [] then splitWsGo [] cs else cur.reverse :: splitWsGo [] cs
    else splitWsGo (c :: cur) cs

/-- `s.split(/\s+/).filter(t => t.length > 0)`: the nonempty
whitespace-separated chunks of `s`. -/
def splitWs (s : Str) : List Str := splitWsGo [] s

-- Basic sanity checks that string literals reduce in the kernel.
example : strL "ab" = ['a', 'b'] := rfl
example : toLowerStr (strL "Ab") = strL "ab" := by decide
example : countOcc (strL "foo") (strL "foo x foo") = 2 := by decide
example : indexOfSub (strL "bar") (strL "x bar") = some 2 := by decide
example : splitWs (strL "  foo  bar ") = [strL "foo", strL "bar"] := by decide
example : splitLines (strL "a\nb") = [strL "a", strL "b"] := by decide
example : trimStr (strL " ab ") = strL "ab" := by decide

/-- `List.isPrefixOf` succeeds exactly when the second list extends the
first. -/
theorem isPrefixOf_exists (pat : Str) :
    ∀ s : Str, pat.isPrefixOf s = true ↔ ∃ post, s = pat ++ post := by
  induction pat with
  | nil => intro s; simp [List.isPrefixOf]
  | cons a as ih =>
    intro s
    cases s with
    | nil => simp [List.isPrefixOf]
    | cons b bs =>
      simp only [List.isPrefixOf, Bool.and_eq_true, beq_iff_eq, ih bs,
        List.cons_append, List.cons.injEq]
      constructor
      · rintro ⟨rfl, post, rfl⟩; exact ⟨post, rfl, rfl⟩
      · rintro ⟨post, rfl, rfl⟩; exact ⟨rfl, post, rfl⟩

/-- Substring occurrence in a cons: either at the very front or inside the
tail. -/
theorem IsSub_cons_iff (pat : Str) (c : Char) (rest : Str) :
    IsSub pat (c :: rest) ↔
      (∃ post, c :: rest = pat ++ post) ∨ IsSub pat rest := by
  constructor
  · rintro ⟨pre, post, h⟩
    cases pre with
    | nil => exact Or.inl ⟨post, by simpa using h⟩
    | cons p ps =>
      right
      simp only [List.cons_append, List.cons.injEq] at h
      exact ⟨ps, post, h.2⟩
  · rintro (⟨post, h⟩ | ⟨pre, post, h⟩)
    · exact ⟨[], post, by simpa using h⟩
    · exact ⟨c :: pre, post, by simp [h]⟩

/-- The occurrence count is positive exactly when the pattern occurs. -/
theorem countOcc_pos_iff (pat s : Str) : 0 < countOcc pat s ↔ IsSub pat s := by
  by_cases hp : pat = []
  · subst hp
    simp only [countOcc, if_pos rfl]
    exact ⟨fun _ => ⟨[], s, rfl⟩, fun _ => Nat.succ_pos _⟩
  · induction s with
    | nil =>
      rw [countOcc_nil pat hp]
      simp only [Nat.lt_irrefl, false_iff]
      rintro ⟨pre, post, h⟩
      have := congrArg List.length h
      simp only [List.length_nil, List.length_append] at this
      have : pat.length = 0 := by omega
      exact hp (List.eq_nil_of_length_eq_zero this)
    | cons c rest ih =>
      rw [countOcc_cons pat hp, IsSub_cons_iff]
      by_cases hpre : pat.isPrefixOf (c :: rest)
      · simp only [hpre, if_pos]
        constructor
        · intro _; exact Or.inl ((isPrefixOf_exists pat _).mp hpre)
        · intro _; omega
      · simp only [hpre, Bool.false_eq_true, if_neg, not_false_eq_true, ih]
        constructor
        · exact Or.inr
        · rintro (h | h)
          · exact absurd ((isPrefixOf_exists pat _).mpr h) (by simp [hpre])
          · exact h

/-- `indexOfSub` finds an index exactly when the pattern occurs. -/
theorem indexOfSub_isSome_iff (pat s : Str) :
    (indexOfSub pat s).isSome = true ↔ IsSub pat s := by
  induction s with
  | nil =>
    by_cases hp : pat = []
    · subst hp; simp [indexOfSub, List.isPrefixOf, IsSub]
    · simp only [indexOfSub]
      have : pat.isPrefixOf [] = false := by
        cases pat with
        | nil => exact absurd rfl hp
        | cons a as => rfl
      simp only [this, Bool.false_eq_true, if_neg, not_false_eq_true,
        if_neg hp, Option.isSome_none, false_iff]
      rintro ⟨pre, post, h⟩
      have := congrArg List.length h
      simp only [List.length_nil, List.length_append] at this
      have hl : pat.length = 0 := by omega
      exact hp (List.eq_nil_of_length_eq_zero hl)
  | cons c rest ih =>
    simp only [indexOfSub]
    by_cases hpre : pat.isPrefixOf (c :: rest)
    · simp only [hpre, if_pos, Option.isSome_some, true_iff]
      obtain ⟨post, h⟩ := (isPrefixOf_exists pat _).mp hpre
      exact ⟨[], post, by simpa using h⟩
    · have hmap : (Option.map (· + 1) (indexOfSub pat rest)).isSome
          = (indexOfSub pat rest).isSome := by
        cases indexOfSub pat rest <;> rfl
      simp only [hpre, Bool.false_eq_true, if_neg, not_false_eq_true, hmap,
        ih, IsSub_cons_iff]
      constructor
      · exact Or.inr
      · rintro (h | h)
        · exact absurd ((isPrefixOf_exists pat _).mpr h) (by simp [hpre])
        · exact h

/-- `containsSub` decides `IsSub`. -/
theorem containsSub_iff (pat s : Str) : containsSub pat s = true ↔ IsSub pat s := by
  simp only [containsSub]
  exact indexOfSub_isSome_iff pat s

/-- Substring occurrence is transitive. -/
theorem IsSub_trans {a b c : Str} (h1 : IsSub a b) (h2 : IsSub b c) :
    IsSub a c := by
  obtain ⟨p1, q1, rfl⟩ := h1
  obtain ⟨p2, q2, rfl⟩ := h2
  exact ⟨p2 ++ p1, q1 ++ q2, by simp⟩

/-- Every chunk produced by `splitWsGo` occurs in the string it was cut
from (the pending chunk `cur` is accumulated in reverse). -/
theorem splitWsGo_sub (t : Str) :
    ∀ (s cur : Str), t ∈ splitWsGo cur s → IsSub t (cur.reverse ++ s) := by
  intro s
  induction s with
  | nil =>
    intro cur h
    simp only [splitWsGo] at h
    by_cases hc : cur = []
    · simp [hc] at h
    · simp only [hc, if_neg, not_false_eq_true, List.mem_singleton] at h
      exact ⟨[], [], by simp [h]⟩
  | cons c cs ih =>
    intro cur h
    simp only [splitWsGo] at h
    by_cases hw : c.isWhitespace
    · simp only [hw, if_pos] at h
      by_cases hc : cur = []
      · simp only [hc, if_pos] at h
        have := ih [] h
        obtain ⟨pre, post, heq⟩ := by simpa using this
        exact ⟨cur.reverse ++ c :: pre, post, by simp [heq]⟩
      · simp only [hc, if_neg, not_false_eq_true, List.mem_cons] at h
        rcases h with rfl | h
        · exact ⟨[], c :: cs, by simp⟩
        · have := ih [] h
          obtain ⟨pre, post, heq⟩ := by simpa using this
          exact ⟨cur.reverse ++ c :: pre, post, by simp [heq]⟩
    · simp only [hw, Bool.false_eq_true, if_neg, not_false_eq_true] at h
      have := ih (c :: cur) h
      simpa using this

/-- Every whitespace-separated chunk of `s` occurs in `s`. -/
theorem splitWs_sub {t s : Str} (h : t ∈ splitWs s) : IsSub t s := by
  have := splitWsGo_sub t s [] h
  simpa using this

/-! ## Corpus segmentation (`parseDocumentation`, documentation-service.js 76-134) -/

/-- One item of a section: `{ content, startLine }`. -/
structure Item where
  content : Str
  startLine : Nat
deriving DecidableEq, Repr

/-- `this.sections`: a name-keyed map in insertion order, modelled as an
association list. -/
abbrev Sections := List (Str × List Item)

/-- `this.sections[name] = this.sections[name] || []; push(item)`:
append to the existing entry, else create a new key at the end. -/
def pushItem (secs : Sections) (name : Str) (item : Item) : Sections :=
  match secs with
  | [] => [(name, [item])]
  | (n, items) :: rest =>
    if n = name then (n, items ++ [item]) :: rest
    else (n, items) :: pushItem rest name item

/-- The section-header test `line.match(/^# [a-z-]+$/)`. -/
def isHeaderLine (l : Str) : Bool :=
  match l with
  | '#' :: ' ' :: rest =>
    !rest.isEmpty && rest.all (fun c => ('a' ≤ c && c ≤ 'z') || c = '-')
  | _ => false

/-- The item-separator test `line.match(/^-{3,}$/)`. -/
def isSepLine (l : Str) : Bool :=
  decide (3 ≤ l.length) && l.all (· = '-')

/-- `currentContent.join("\n")`. -/
def joinNl (lines : List Str) : Str := List.intercalate (strL "\n") lines

/-- The loop state of `parseDocumentation`: built sections, current section
name, start line of the item being buffered (`null` before the first
header), and the buffered lines. -/
structure ParseState where
  sections : Sections
  sectionName : Str
  currentSection : Option Nat
  currentContent : List Str
deriving DecidableEq

/-- One iteration of the `parseDocumentation` line loop
(documentation-service.js 82-118), at line index `i`. -/
def parseStep (st : ParseState) (i : Nat) (line : Str) : ParseState :=
  if isHeaderLine line then
    let secs :=
      match st.currentSection with
      | some start =>
        if st.currentContent.length > 0 then
          pushItem st.sections st.sectionName ⟨joinNl st.currentContent, start⟩
        else st.sections
      | none => st.sections
    ⟨secs, trimStr (line.drop 2), some i, [line]⟩
  else if isSepLine line ∧ st.currentContent.length > 1 ∧ st.currentSection.isSome then
    let secs :=
      match st.currentSection with
      | some start =>
        pushItem st.sections st.sectionName ⟨joinNl st.currentContent, start⟩
      | none => st.sections
    ⟨secs, st.sectionName, some (i + 1), []⟩
  else if st.currentSection.isSome then
    ⟨st.sections, st.sectionName, st.currentSection, st.currentContent ++ [line]⟩
  else st

/-- Run the line loop from index `i`. -/
def parseGo (st : ParseState) (i : Nat) : List Str → ParseState
  | [] => st
  | l :: ls => parseGo (parseStep st i l) (i + 1) ls

/-- Flush the final buffered item (documentation-service.js 120-127). -/
def parseFinish (st : ParseState) : Sections :=
  match st.currentSection with
  | some start =>
    if st.currentContent.length > 0 then
      pushItem st.sections st.sectionName ⟨joinNl st.currentContent, start⟩
    else st.sections
  | none => st.sections

/-- `parseDocumentation(text)` (documentation-service.js 76-127); the
subsequent API indexing and deprecation analysis do not alter `sections`
and are modelled separately where needed. -/
def parseDocumentation (text : Str) : Sections :=
  parseFinish (parseGo ⟨[], [], none, []⟩ 0 (splitLines text))

example :
    parseDocumentation (strL "# api-docs\n\nFirst item\n\n----------\n\nSecond item")
      = [(strL "api-docs",
          [⟨strL "# api-docs\n\nFirst item\n", 0⟩,
           ⟨strL "\nSecond item", 5⟩])] := by decide

/-! ## Title extraction (`extractTitle`, documentation-service.js 311-391) -/

/-- The `genericPatterns` table (documentation-service.js 315-325), applied
to an already-trimmed candidate title.  Each disjunct embeds one of the
anchored, case-insensitive regular expressions. -/
def isGenericTitle (t : Str) : Bool :=
  let lt := toLowerStr t
  (strL "for all").isPrefixOf lt || (strL "for any").isPrefixOf lt ||
  (strL "for most").isPrefixOf lt || (strL "for some").isPrefixOf lt ||
  (strL "in this").isPrefixOf lt || (strL "in these").isPrefixOf lt ||
  (strL "in all").isPrefixOf lt || (strL "in any").isPrefixOf lt ||
  (strL "with this").isPrefixOf lt || (strL "with these").isPrefixOf lt ||
  (strL "with all").isPrefixOf lt || (strL "with any").isPrefixOf lt ||
  (strL "using this").isPrefixOf lt || (strL "using these").isPrefixOf lt ||
  (strL "using all").isPrefixOf lt || (strL "using any").isPrefixOf lt ||
  (strL "note:").isPrefixOf lt || (strL "warning:").isPrefixOf lt ||
  (strL "tip:").isPrefixOf lt || (strL "important:").isPrefixOf lt ||
  (strL "here is").isPrefixOf lt || (strL "here are").isPrefixOf lt ||
  (strL "there is").isPrefixOf lt || (strL "there are").isPrefixOf lt ||
  (strL "this is").isPrefixOf lt || (strL "this are").isPrefixOf lt ||
  (strL "that is").isPrefixOf lt || (strL "that are").isPrefixOf lt ||
  (strL "http://").isPrefixOf lt || (strL "https://").isPrefixOf lt ||
  (!t.isEmpty && t.all (fun c => c.isDigit || c = '.')) ||
  (match t with
   | a :: b :: _ => (a = '-' || a = '*' || a = '+') && b.isWhitespace
   | _ => false)

/-- Parse one line as the `title:` line of the frontmatter pattern
`title:\s*["']?([^"'\n]+)["']?\s*` (case-insensitive on the key). -/
def fmTitleValue (l : Str) : Option Str :=
  if (strL "title:").isPrefixOf (toLowerStr l) then
    let r := (l.drop 6).dropWhile Char.isWhitespace
    let r := match r with
      | c :: cs => if c = '"' ∨ c = '\'' then cs else r
      | [] => r
    let v := r.takeWhile (fun c => ¬ (c = '"' ∨ c = '\''))
    if v.isEmpty then none
    else
      let rest := r.drop v.length
      let rest := match rest with
        | c :: cs => if c = '"' ∨ c = '\'' then cs else rest
        | [] => rest
      if rest.all Char.isWhitespace then some (trimStr v) else none
  else none

/-- Scan the lines after the opening `---` for a `title:` line that is
followed (later) by a line starting with `---`; mirrors the lazy
`(?:.*\n)*?` loops of the frontmatter regular expression
(documentation-service.js 328). -/
def fmFind : List Str → Option Str
  | [] => none
  | l :: ls =>
    match fmTitleValue l with
    | some v =>
      if ls.any (fun m => (strL "---").isPrefixOf m) then some v
      else fmFind ls
    | none => fmFind ls

/-- The frontmatter-title branch (documentation-service.js 328-331): the
content must open with a line that is `---` plus trailing whitespace. -/
def frontmatterTitle (content : Str) : Option Str :=
  match splitLines content with
  | [] => none
  | l0 :: rest =>
    if (strL "---").isPrefixOf l0 && (l0.drop 3).all Char.isWhitespace then
      fmFind rest
    else none

/-- The markdown-header match `/^#+\s+(.+)$/` with the captured group
trimmed (documentation-service.js 335-337). -/
def headerTitleOf (line : Str) : Option Str :=
  match line with
  | [] => none
  | c :: _ =>
    if c = '#' then
      let afterHash := line.dropWhile (· = '#')
      match afterHash with
      | w :: _ :: _ => if w.isWhitespace then some (trimStr afterHash) else none
      | _ => none
    else none

/-- The header-scanning loop (documentation-service.js 334-344). -/
def findHeaderTitle : List Str → Option Str
  | [] => none
  | l :: ls =>
    match headerTitleOf l with
    | some t =>
      if !isGenericTitle t && decide (3 < t.length) then some t
      else findHeaderTitle ls
    | none => findHeaderTitle ls

/-- The applicability test of `content.match(/\{[\s\S]*"data"[\s\S]*\}/)`:
an opening brace, later the token `"data"`, later a closing brace. -/
def hasJsonData (content : Str) : Bool :=
  match indexOfSub [braceOpen] content with
  | none => false
  | some p1 =>
    let tail1 := content.drop (p1 + 1)
    match indexOfSub (strL "\"data\"") tail1 with
    | none => false
    | some p2 => containsSub [braceClose] (tail1.drop (p2 + 6))

/-- Modelled from the spec: the structured-record title fallback calls the
runtime primitive `JSON.parse` on the matched block and reads
`data.attributes.name` (documentation-service.js 347-357); the parser
itself is not part of the sources under verification.  All corpora used in
the theorems below contain no `"data"` token, so this branch is never
reached there; it is modelled as yielding no name. -/
def jsonNameOf (_content : Str) : Option Str := none

/-- `/^([^.!?]+[.!?])/`: the leading sentence including its terminator
(documentation-service.js 382). -/
def sentenceOf (t : Str) : Option Str :=
  let pre := t.takeWhile (fun c => ¬ (c = '.' ∨ c = '!' ∨ c = '?'))
  if pre.isEmpty then none
  else if pre.length < t.length then some (t.take (pre.length + 1))
  else none

/-- The final fallback loop of `extractTitle`
(documentation-service.js 360-390). -/
def fallbackTitle : List Str → Str
  | [] => strL "Untitled"
  | l :: ls =>
    let t := trimStr l
    if t.isEmpty then fallbackTitle ls
    else if t.all (fun c => c = '-' ∨ c = '=') then fallbackTitle ls
    else if t.head? = some braceOpen then fallbackTitle ls
    else if t.head? = some '[' then fallbackTitle ls
    else if (strL "```").isPrefixOf t then fallbackTitle ls
    else if (strL "http://").isPrefixOf t ∨ (strL "https://").isPrefixOf t then
      fallbackTitle ls
    else if isGenericTitle t then fallbackTitle ls
    else if 10 < t.length then
      match sentenceOf t with
      | some sent => (trimStr sent).take 100
      | none => t.take 100
    else fallbackTitle ls

/-- `extractTitle(content)` (documentation-service.js 311-391):
frontmatter title, else first acceptable markdown header, else the
structured-record name, else the fallback scan. -/
def extractTitle (content : Str) : Str :=
  let lines := splitLines content
  match frontmatterTitle content with
  | some t => t
  | none =>
    match findHeaderTitle lines with
    | some t => t
    | none =>
      match (if hasJsonData content then jsonNameOf content else none) with
      | some t => t
      | none => fallbackTitle lines

example : extractTitle (strL "# Main Title\n\nSome content") = strL "Main Title" := by decide
example : extractTitle (strL "First meaningful line\nSecond line")
    = strL "First meaningful line" := by decide
example : extractTitle (strL "# docs-x\nfoo bar") = strL "docs-x" := by decide

/-! ## Relevance search (`search`, documentation-service.js 209-309) -/

/-- Modelled from the spec: the numeric weights of `SEARCH_CONFIG` live in
`lib/config.js`, which is not among the provided sources (only its import
site is).  The spec (§4.5, §9) treats them as configuration: an exact
phrase carries a "large fixed bonus" that alone passes the stricter
single-term floor, title matches are "highly relevant", the all-terms
bonus is "significant", and the regression tests require every admitted
score to be at least 10.  All universally quantified theorems below hold
for every configuration; this record fixes concrete values for the
concrete evaluations. -/
structure SearchConfig where
  EXACT_PHRASE_BONUS : Nat
  TITLE_MATCH_BONUS : Nat
  TERM_MATCH_WEIGHT : Nat
  ALL_TERMS_BONUS : Nat
  PROXIMITY_THRESHOLD : Nat
  PROXIMITY_BONUS_DIVISOR : Nat
  MIN_SCORE : Nat
  MIN_SCORE_SINGLE_TERM : Nat
deriving DecidableEq

/-- Modelled from the spec: concrete configuration values (see
`SearchConfig`). -/
def modelConfig : SearchConfig :=
  ⟨30, 15, 2, 25, 100, 10, 10, 25⟩

/-- `queryLower.split(/\s+/).filter(term => term.length > 0)`
(documentation-service.js 211-212). -/
def searchTermsOf (query : Str) : List Str := splitWs (toLowerStr query)

/-- Score contribution of one query term (documentation-service.js
247-266): an occurrence-count weight plus a one-off title bonus, zero when
the term does not occur.  The loop's running sum over the term list is the
sum of these contributions. -/
def termScore (cfg : SearchConfig) (titleLower contentLower t : Str) : Nat :=
  let occ := countOcc t contentLower
  if 0 < occ then
    (if containsSub t titleLower then cfg.TITLE_MATCH_BONUS else 0)
      + occ * cfg.TERM_MATCH_WEIGHT
  else 0

/-- The `matchedTerms` array after the scoring loop: the whole query is
pushed first on an exact-phrase hit (documentation-service.js 241-244),
then every term with a positive occurrence count, in term order
(documentation-service.js 247-251). -/
def matchedList (queryLower : Str) (terms : List Str) (contentLower : Str) :
    List Str :=
  (if containsSub queryLower contentLower then [queryLower] else []) ++
    terms.filter (fun t => decide (0 < countOcc t contentLower))

/-- The `termPositions` array: for every matching term, its first
occurrence offset (documentation-service.js 260-264). -/
def termPositionsOf (terms : List Str) (contentLower : Str) :
    List (Str × Nat) :=
  terms.filterMap (fun t =>
    if 0 < countOcc t contentLower then
      (indexOfSub t contentLower).map (fun p => (t, p))
    else none)

/-- Largest recorded position. -/
def maxPos (ps : List (Str × Nat)) : Nat :=
  match ps.map Prod.snd with
  | [] => 0
  | v :: vs => vs.foldl max v

/-- Smallest recorded position. -/
def minPos (ps : List (Str × Nat)) : Nat :=
  match ps.map Prod.snd with
  | [] => 0
  | v :: vs => vs.foldl min v

/-- The `spread` of documentation-service.js 274-275: the source sorts the
positions ascending and subtracts the first from the last, i.e. the
maximum minus the minimum. -/
def posSpread (ps : List (Str × Nat)) : Nat := maxPos ps - minPos ps

/-- The proximity bonus (documentation-service.js 273-279), only computed
when more than one position was recorded; `Math.floor` of the quotient is
natural-number division. -/
def proximityBonus (cfg : SearchConfig) (ps : List (Str × Nat)) : Nat :=
  if 1 < ps.length then
    let spread := posSpread ps
    if spread < cfg.PROXIMITY_THRESHOLD then
      (cfg.PROXIMITY_THRESHOLD - spread) / cfg.PROXIMITY_BONUS_DIVISOR
    else 0
  else 0

/-- The guard of the all-terms branch:
`matchedTerms.length === searchTerms.length`
(documentation-service.js 269). -/
def allTermsBonusApplied (queryLower : Str) (terms : List Str)
    (contentLower : Str) : Bool :=
  (matchedList queryLower terms contentLower).length == terms.length

/-- The total relevance score of one item (documentation-service.js
236-281): exact-phrase bonus, per-term contributions, and - when the
all-terms guard holds - the all-terms bonus plus the proximity bonus. -/
def scoreOf (cfg : SearchConfig) (queryLower : Str) (terms : List Str)
    (contentLower titleLower : Str) : Nat :=
  (if containsSub queryLower contentLower then cfg.EXACT_PHRASE_BONUS else 0)
    + (terms.map (termScore cfg titleLower contentLower)).sum
    + (if allTermsBonusApplied queryLower terms contentLower then
        cfg.ALL_TERMS_BONUS
          + proximityBonus cfg (termPositionsOf terms contentLower)
      else 0)

/-- `categorizeSectionName` (documentation-service.js 493-497). -/
def categorizeSectionName (sectionName : Str) : Str :=
  if sectionName = strL "api-docs" then strL "API Documentation"
  else if sectionName = strL "community-bloggers" then strL "Community Articles"
  else strL "Guides & Tutorials"

/-- One emitted search result (documentation-service.js 291-301).  The
presentational fields `excerpt`, `url`, `apiLink` and `deprecationInfo`
are produced by collaborators (excerpt extraction is modelled separately
below) and play no role in any claim, so they are not carried here. -/
structure ScoredResult where
  title : Str
  category : Str
  score : Nat
  matchedTerms : Nat
  totalTerms : Nat
deriving DecidableEq, Repr

/-- Score one item and apply the admission rule
(documentation-service.js 285): emit a result exactly when
`score >= MIN_SCORE && (matchedTerms.length >= 2 || score >= MIN_SCORE_SINGLE_TERM)`. -/
def resultOfItem (cfg : SearchConfig) (sectionName : Str) (terms : List Str)
    (queryLower : Str) (item : Item) : Option ScoredResult :=
  let contentLower := toLowerStr item.content
  let title := extractTitle item.content
  let titleLower := toLowerStr title
  let score := scoreOf cfg queryLower terms contentLower titleLower
  let mt := (matchedList queryLower terms contentLower).length
  if cfg.MIN_SCORE ≤ score ∧ (2 ≤ mt ∨ cfg.MIN_SCORE_SINGLE_TERM ≤ score) then
    some ⟨title, categorizeSectionName sectionName, score, mt, terms.length⟩
  else none

/-- The category filter (documentation-service.js 214-225): the list of
section names to scan. -/
def sectionsToSearch (secs : Sections) (category : Str) : List Str :=
  if category = strL "all" then secs.map Prod.fst
  else if category = strL "api" then [strL "api-docs"]
  else if category = strL "guides" then
    (secs.map Prod.fst).filter
      (fun s => ¬ (s = strL "api-docs" ∨ s = strL "community-bloggers"))
  else if category = strL "community" then [strL "community-bloggers"]
  else []

/-- `this.sections[sectionName] || []`. -/
def lookupSection (secs : Sections) (name : Str) : List Item :=
  ((secs.find? (fun e => e.1 == name)).map Prod.snd).getD []

/-- The admitted results in corpus scan order (the nested loops of
documentation-service.js 227-304 before sorting). -/
def searchRaw (cfg : SearchConfig) (secs : Sections) (query category : Str) :
    List ScoredResult :=
  let queryLower := toLowerStr query
  let terms := searchTermsOf query
  (sectionsToSearch secs category).flatMap (fun name =>
    (lookupSection secs name).filterMap (resultOfItem cfg name terms queryLower))

/-- Stable insertion of a later-scanned result into a descending-sorted
list: it lands after every element of score `>=` its own, as the stable
`Array.prototype.sort` comparator `(a, b) => b.score - a.score` does. -/
def insertDesc (r : ScoredResult) : List ScoredResult → List ScoredResult
  | [] => [r]
  | x :: xs => if r.score ≤ x.score then x :: insertDesc r xs else r :: x :: xs

/-- `results.sort((a, b) => b.score - a.score)`
(documentation-service.js 307).  A stable sort under a total comparator is
uniquely determined, so this stable insertion sort computes the same list
as the runtime's stable sort. -/
def sortDesc (l : List ScoredResult) : List ScoredResult :=
  l.foldl (fun acc r => insertDesc r acc) []

/-- `search(query, category, limit)` (documentation-service.js 209-309):
score, filter, sort descending, truncate.  `results.slice(0, limit)` is
`List.take`. -/
def search (cfg : SearchConfig) (secs : Sections) (query category : Str)
    (limit : Nat) : List ScoredResult :=
  (sortDesc (searchRaw cfg secs query category)).take limit

example :
    (search modelConfig
        (parseDocumentation (strL "# docs-x\nfoo bar baz"))
        (strL "foo bar") (strL "all") 5).map
      (fun r => (r.score, r.matchedTerms, r.totalTerms))
      = [(34, 3, 2)] := by decide

/-! ## Excerpt window selection (`extractExcerpt`, documentation-service.js 393-451) -/

/-- Stable ascending insertion by position, matching the stable
`termPositions.sort((a, b) => a.pos - b.pos)`. -/
def insertAscPos (p : Str × Nat) :
    List (Str × Nat) → List (Str × Nat)
  | [] => [p]
  | x :: xs => if x.2 ≤ p.2 then x :: insertAscPos p xs else p :: x :: xs

/-- Sort hit positions ascending (documentation-service.js 399). -/
def sortPosAsc (l : List (Str × Nat)) : List (Str × Nat) :=
  l.foldl (fun acc p => insertAscPos p acc) []

/-- The `clusterSize` computed for the anchor at the head of a (sorted)
position suffix (documentation-service.js 405-413): one plus the number of
following hits whose distance FROM THE ANCHOR is below 500 - the inner
loop breaks at the first farther hit. -/
def clusterLen : List Nat → Nat
  | [] => 0
  | p :: rest => 1 + (rest.takeWhile (fun q => q - p < 500)).length

/-- The best-cluster scan (documentation-service.js 401-418): running
best start and best density, updated on strictly larger cluster sizes. -/
def bestClusterGo (best density : Nat) : List Nat → Nat
  | [] => best
  | p :: rest =>
    let c := 1 + (rest.takeWhile (fun q => q - p < 500)).length
    if density < c then bestClusterGo p c rest
    else bestClusterGo best density rest

/-- `bestStart` after the scan: initialised to the first (sorted)
position with density 1, then the loop over all anchors. -/
def bestClusterStart : List Nat → Nat
  | [] => 0
  | p :: rest => bestClusterGo p 1 (p :: rest)

/-- The excerpt context window of `extractExcerpt`
(documentation-service.js 397-422): when hit positions exist, sort them,
pick the best cluster anchor `b`, and return
`(Math.max(0, b - 150), Math.min(content.length, b + 400))`; `none`
stands for the no-positions fallback paths (443-490), which no claim
touches.  The subsequent ellipsis trimming and block collapsing transform
the window's text but never its bounds. -/
def extractExcerptWindow (content : Str) (termPositions : List (Str × Nat)) :
    Option (Nat × Nat) :=
  if 0 < termPositions.length then
    let sorted := sortPosAsc termPositions
    let b := bestClusterStart (sorted.map Prod.snd)
    some (b - 150, min content.length (b + 400))
  else none

example : bestClusterStart [0, 450, 900, 2000, 2100, 2200] = 2000 := by decide

/-! ## Deprecation manager (`deprecation-manager.js`) -/

/-- A deprecation record (deprecation-manager.js); optional fields are
absent (`null`/`undefined`) when the analysis did not produce them. -/
structure DeprecationRecord where
  name : Str
  status : Str
  since : Option Str
  reason : Option Str
  modernAlternative : Option Str
  category : Option Str
  deprecationGuideLink : Option Str
  severity : Str
deriving DecidableEq, Repr

/-- `Map.get`, on the association-list model of a JavaScript `Map`. -/
def mapGet (m : List (Str × DeprecationRecord)) (k : Str) :
    Option DeprecationRecord :=
  (m.find? (fun e => e.1 == k)).map Prod.snd

/-- `Map.set`: overwrite in place, else append (JavaScript `Map` keeps the
original insertion position of an existing key). -/
def mapSet (m : List (Str × DeprecationRecord)) (k : Str)
    (v : DeprecationRecord) : List (Str × DeprecationRecord) :=
  match m with
  | [] => [(k, v)]
  | (k', v') :: rest =>
    if k' = k then (k, v) :: rest else (k', v') :: mapSet rest k v

/-- `this.knownDeprecations` — the seeded fallback tier
(deprecation-manager.js 17-50). -/
def knownDeprecations : List (Str × DeprecationRecord) :=
  [(strL "arrayproxy",
    ⟨strL "ArrayProxy", strL "deprecated", none,
     some (strL "Native Proxy is now available in all supported environments"),
     some (strL "Use tracked properties and native arrays for reactive data"),
     some (strL "legacy-proxy"), none, strL "warning"⟩),
   (strL "objectproxy",
    ⟨strL "ObjectProxy", strL "deprecated", none,
     some (strL "Native Proxy is now available in all supported environments"),
     some (strL "Use tracked properties with plain objects"),
     some (strL "legacy-proxy"), none, strL "warning"⟩),
   (strL "promiseproxymixin",
    ⟨strL "PromiseProxyMixin", strL "deprecated", none,
     some (strL "Native Proxy is now available in all supported environments"),
     some (strL "Use ember-async-data or ember-concurrency with tracked properties"),
     some (strL "legacy-proxy"), none, strL "warning"⟩),
   (strL "evented",
    ⟨strL "Evented", strL "deprecated", none,
     some (strL "Legacy event system from pre-modern Ember"),
     some (strL "Use native event system or ember-concurrency for complex flows"),
     some (strL "legacy-events"), none, strL "info"⟩)]

/-- The mutable content-derived tier `this.deprecations` of a
`DeprecationManager` instance. -/
structure DeprecationManagerState where
  deprecations : List (Str × DeprecationRecord)
deriving DecidableEq

/-- `isDeprecated(name)` (deprecation-manager.js 125-129); a falsy
(empty) name yields `false`. -/
def isDeprecated (st : DeprecationManagerState) (name : Str) : Bool :=
  if name = [] then false
  else
    (mapGet st.deprecations (toLowerStr name)).isSome
      || (mapGet knownDeprecations (toLowerStr name)).isSome

/-- `getDeprecationInfo(name)` (deprecation-manager.js 136-140):
content-derived tier first, seeded tier as fallback, `none` otherwise. -/
def getDeprecationInfo (st : DeprecationManagerState) (name : Str) :
    Option DeprecationRecord :=
  if name = [] then none
  else
    (mapGet st.deprecations (toLowerStr name)).orElse
      (fun _ => mapGet knownDeprecations (toLowerStr name))

/-- `registerDeprecation(name, info)` (deprecation-manager.js 147-150);
the record argument is a value here, so the `!info` guard of the source
(null/undefined record) cannot fire and only the falsy-name guard is
modelled. -/
def registerDeprecation (st : DeprecationManagerState) (name : Str)
    (info : DeprecationRecord) : DeprecationManagerState :=
  if name = [] then st
  else ⟨mapSet st.deprecations (toLowerStr name) info⟩

/-! ## Best practices (`getBestPractices`, documentation-service.js 563-781) -/

/-- Modelled from the spec: the inflection operations delegate to the
external `pluralize` library (configured in documentation-service.js
18-24 with a `caches -> cache` rule and `data`/`metadata` uncountable);
the library is not part of the sources, so §4.3's description - a
general-purpose English pluralization rule table plus those overrides -
is modelled directly.  Words declared uncountable. -/
def uncountableWords : List Str := [strL "data", strL "metadata"]

/-- Modelled from the spec: vowels, used by the `y -> ies` rule. -/
def isVowel (c : Char) : Bool :=
  c = 'a' ∨ c = 'e' ∨ c = 'i' ∨ c = 'o' ∨ c = 'u'

/-- Modelled from the spec: `toSingular` / `pluralize.singular` (see
`uncountableWords`). -/
def toSingular (w : Str) : Str :=
  if w ∈ uncountableWords then w
  else if (strL "caches").isSuffixOf w then w.take (w.length - 6) ++ strL "cache"
  else if (strL "ies").isSuffixOf w ∧ 3 < w.length then
    w.take (w.length - 3) ++ strL "y"
  else if (strL "ses").isSuffixOf w ∨ (strL "xes").isSuffixOf w
      ∨ (strL "zes").isSuffixOf w ∨ (strL "ches").isSuffixOf w
      ∨ (strL "shes").isSuffixOf w then
    w.take (w.length - 2)
  else if (strL "ss").isSuffixOf w then w
  else if (strL "s").isSuffixOf w then w.take (w.length - 1)
  else w

/-- Modelled from the spec: `pluralize.plural` (see `uncountableWords`). -/
def toPlural (w : Str) : Str :=
  if w ∈ uncountableWords then w
  else if (strL "s").isSuffixOf w ∨ (strL "x").isSuffixOf w
      ∨ (strL "z").isSuffixOf w ∨ (strL "ch").isSuffixOf w
      ∨ (strL "sh").isSuffixOf w then
    w ++ strL "es"
  else
    match w.reverse with
    | 'y' :: c :: _ =>
      if isVowel c then w ++ strL "s"
      else w.take (w.length - 1) ++ strL "ies"
    | _ => w ++ strL "s"

example : toPlural (strL "component") = strL "components" := by decide
example : toSingular (strL "components") = strL "component" := by decide

/-- Modelled from the spec: `BEST_PRACTICES_KEYWORDS.strong` from
`lib/config.js` (not among the sources); the list follows §4.7 and the
development notes. -/
def strongKeywords : List Str :=
  [strL "best practice", strL "recommended approach", strL "modern pattern",
   strL "idiomatic", strL "anti-pattern", strL "migration guide"]

/-- Modelled from the spec: `BEST_PRACTICES_KEYWORDS.weak`. -/
def weakKeywords : List Str :=
  [strL "tip", strL "performance", strL "recommended", strL "should",
   strL "modern"]

/-- Modelled from the spec: `SEARCH_CONFIG.BP_TERM_MATCH_WEIGHT`
(10 points per matched topic term, per the development notes). -/
def BP_TERM_MATCH_WEIGHT : Nat := 10

/-- Modelled from the spec: `SEARCH_CONFIG.BP_ALL_TERMS_BONUS` (+20). -/
def BP_ALL_TERMS_BONUS : Nat := 20

/-- Modelled from the spec: `SEARCH_CONFIG.BP_STRONG_KEYWORD_WEIGHT` (+5
each). -/
def BP_STRONG_KEYWORD_WEIGHT : Nat := 5

/-- Modelled from the spec: `SEARCH_CONFIG.BP_WEAK_KEYWORD_WEIGHT` (+2
each, only with a strong match present). -/
def BP_WEAK_KEYWORD_WEIGHT : Nat := 2

/-- Modelled from the spec: `SEARCH_CONFIG.BP_MIN_THRESHOLD` (score must
reach 15). -/
def BP_MIN_THRESHOLD : Nat := 15

/-- Modelled from the spec: `SEARCH_CONFIG.MAX_BEST_PRACTICES` (top 5). -/
def MAX_BEST_PRACTICES : Nat := 5

/-- Topic-term matching with inflection (documentation-service.js
601-613): the literal term, or a differing singular form, or a differing
plural form, as a substring of the lowercased content. -/
def bpTermMatches (content term : Str) : Bool :=
  containsSub term content
    || (let singular := toSingular term
        singular ≠ term && containsSub singular content)
    || (let plural := toPlural term
        plural ≠ term && containsSub plural content)

/-- The candidate pool (documentation-service.js 578-584): community
items first, then every item of each non-API, non-community section in
section order. -/
def bpCandidatePool (secs : Sections) : List Item :=
  lookupSection secs (strL "community-bloggers")
    ++ (secs.filter (fun e =>
          ¬ (e.1 = strL "api-docs" ∨ e.1 = strL "community-bloggers"))).flatMap
        Prod.snd

/-- Result of `extractBestPracticeSections`
(documentation-service.js 776-780). -/
structure BPExtract where
  content : Str
  examples : List Str
  antiPatterns : List Str
deriving DecidableEq, Repr

/-- Running state of the `extractBestPracticeSections` line loop. -/
structure BPState where
  relevantContent : List Str
  examples : List Str
  antiPatterns : List Str
  inCodeBlock : Bool
  currentExample : List Str
  foundRelevant : Bool
deriving DecidableEq

/-- Relevance-onset test for one line (documentation-service.js 720-741):
any topic term - literal, differing singular, or differing plural - occurs
in the lowercased line. -/
def lineRelevant (topicTerms : List Str) (lineLower : Str) : Bool :=
  topicTerms.any (fun term =>
    containsSub term lineLower
      || (let singular := toSingular term
          singular ≠ term && containsSub singular lineLower)
      || (let plural := toPlural term
          plural ≠ term && containsSub plural lineLower))

/-- `/^[#\-=]+$/`: a line made solely of `#`, `-` or `=` characters. -/
def isStructuralLine (l : Str) : Bool :=
  !l.isEmpty && l.all (fun c => c = '#' ∨ c = '-' ∨ c = '=')

/-- `/^# [^#]/`: a top-level markdown header, the early-exit test of
documentation-service.js 771. -/
def isTopHeaderBreak (l : Str) : Bool :=
  match l with
  | '#' :: ' ' :: c :: _ => c ≠ '#'
  | _ => false

/-- First-occurrence deduplication with an explicit seen accumulator
(the JavaScript `[...new Set(xs)]` keeps first occurrences). -/
def dedupFirstGo (seen : List Str) : List Str → List Str
  | [] => []
  | a :: l =>
    if a ∈ seen then dedupFirstGo seen l
    else a :: dedupFirstGo (a :: seen) l

/-- `[...new Set(xs)]`. -/
def dedupFirst (l : List Str) : List Str := dedupFirstGo [] l

/-- The line loop of `extractBestPracticeSections`
(documentation-service.js 694-774), with the source's `continue`s encoded
in the branch structure and the `break` by returning the state. -/
def bpGo (topicTerms : List Str) (st : BPState) : List Str → BPState
  | [] => st
  | line :: rest =>
    let lineLower := toLowerStr line
    if (strL "```").isPrefixOf (trimStr line) then
      if ¬ st.inCodeBlock then
        bpGo topicTerms
          ⟨st.relevantContent, st.examples, st.antiPatterns, true, [line],
           st.foundRelevant⟩ rest
      else
        let ex := st.currentExample ++ [line]
        let examples :=
          if st.foundRelevant ∧ 2 < ex.length then st.examples ++ [joinNl ex]
          else st.examples
        bpGo topicTerms
          ⟨st.relevantContent, examples, st.antiPatterns, false, [],
           st.foundRelevant⟩ rest
    else if st.inCodeBlock then
      bpGo topicTerms
        ⟨st.relevantContent, st.examples, st.antiPatterns, true,
         st.currentExample ++ [line], st.foundRelevant⟩ rest
    else
      let found := st.foundRelevant || lineRelevant topicTerms lineLower
      let st1 :=
        if found ∧ st.relevantContent.length < 50 then
          let anti :=
            if containsSub (strL "avoid") lineLower
                ∨ containsSub (strL "don't") lineLower
                ∨ containsSub (strL "anti-pattern") lineLower
                ∨ containsSub (strL "bad practice") lineLower then
              let nextLines :=
                trimStr (List.intercalate (strL " ") ((line :: rest).take 3))
              if 10 < nextLines.length ∧ nextLines.length < 200 then
                st.antiPatterns ++ [nextLines]
              else st.antiPatterns
            else st.antiPatterns
          let rc :=
            if ¬ (trimStr line).isEmpty ∧ ¬ isStructuralLine line
                ∧ ¬ ((trimStr line).head? = some braceOpen) then
              st.relevantContent ++ [line]
            else st.relevantContent
          (⟨rc, st.examples, anti, st.inCodeBlock, st.currentExample, found⟩ :
            BPState)
        else
          ⟨st.relevantContent, st.examples, st.antiPatterns, st.inCodeBlock,
           st.currentExample, found⟩
      if found ∧ isTopHeaderBreak line then st1
      else bpGo topicTerms st1 rest

/-- `extractBestPracticeSections(content, topic)`
(documentation-service.js 682-781); `topic` arrives lowercased. -/
def extractBestPracticeSections (content : Str) (topic : Str) : BPExtract :=
  let lines := splitLines content
  let topicTerms := (splitWs topic).filter (fun t => 2 < t.length)
  let st := bpGo topicTerms ⟨[], [], [], false, [], false⟩ lines
  ⟨trimStr (joinNl (st.relevantContent.take 30)), st.examples.take 3,
   (dedupFirst st.antiPatterns).take 3⟩

/-- One returned best practice (documentation-service.js 662-669); the
`references` field is produced by the URL-building collaborator and plays
no role in any claim, so it is not carried here. -/
structure BestPractice where
  title : Str
  content : Str
  examples : List Str
  antiPatterns : List Str
deriving DecidableEq, Repr

/-- The candidate loop of `getBestPractices`
(documentation-service.js 593-671): term matching with inflection,
scoring, threshold, title deduplication (the title is marked seen before
the non-empty-content check, as in the source) and collection of scored
practices in scan order. -/
def getBestPracticesGo (topicLower : Str) (topicTerms : List Str)
    (seen : List Str) (acc : List (BestPractice × Nat)) :
    List Item → List (BestPractice × Nat)
  | [] => acc
  | doc :: docs =>
    let content := toLowerStr doc.content
    let matched := topicTerms.filter (fun t => bpTermMatches content t)
    if matched.length = 0 then
      getBestPracticesGo topicLower topicTerms seen acc docs
    else
      let score := matched.length * BP_TERM_MATCH_WEIGHT
        + (if matched.length = topicTerms.length then BP_ALL_TERMS_BONUS else 0)
      let strongMatches := strongKeywords.filter (fun k => containsSub k content)
      let score := score + strongMatches.length * BP_STRONG_KEYWORD_WEIGHT
      let score := score
        + (if 0 < strongMatches.length then
            (weakKeywords.filter (fun k => containsSub k content)).length
              * BP_WEAK_KEYWORD_WEIGHT
          else 0)
      if score < BP_MIN_THRESHOLD then
        getBestPracticesGo topicLower topicTerms seen acc docs
      else
        let title := extractTitle doc.content
        if toLowerStr title ∈ seen then
          getBestPracticesGo topicLower topicTerms seen acc docs
        else
          let seen' := toLowerStr title :: seen
          let rs := extractBestPracticeSections doc.content topicLower
          if ¬ rs.content.isEmpty then
            getBestPracticesGo topicLower topicTerms seen'
              (acc ++ [(⟨title, rs.content, rs.examples, rs.antiPatterns⟩, score)])
              docs
          else
            getBestPracticesGo topicLower topicTerms seen' acc docs

/-- Stable descending insertion for scored practices (comparator
`(a, b) => b.score - a.score`). -/
def insertDescBP (p : BestPractice × Nat) :
    List (BestPractice × Nat) → List (BestPractice × Nat)
  | [] => [p]
  | x :: xs => if p.2 ≤ x.2 then x :: insertDescBP p xs else p :: x :: xs

/-- `practices.sort((a, b) => b.score - a.score)`
(documentation-service.js 674), as a stable sort. -/
def sortDescBP (l : List (BestPractice × Nat)) : List (BestPractice × Nat) :=
  l.foldl (fun acc p => insertDescBP p acc) []

/-- `getBestPractices(topic)` (documentation-service.js 572-680): filter
and score the candidate pool, sort by score descending, truncate to the
fixed cap, and strip the internal score. -/
def getBestPractices (secs : Sections) (topic : Str) : List BestPractice :=
  let topicLower := toLowerStr topic
  let topicTerms := (splitWs topicLower).filter (fun t => 2 < t.length)
  let scored :=
    getBestPracticesGo topicLower topicTerms [] [] (bpCandidatePool secs)
  ((sortDescBP scored).take MAX_BEST_PRACTICES).map Prod.fst

example :
    ((getBestPractices
        (parseDocumentation
          (strL "# community-bloggers\nBest practice for component architecture is recommended"))
        (strL "components")).map (fun p => p.title))
      = [strL "community-bloggers"] := by decide

/-! ## Helper lemmas for the map model -/

/-- Looking up the key just set returns the value just set. -/
theorem mapGet_mapSet (m : List (Str × DeprecationRecord)) (k : Str)
    (v : DeprecationRecord) : mapGet (mapSet m k v) k = some v := by
  induction m with
  | nil => simp [mapSet, mapGet, List.find?]
  | cons e rest ih =>
    obtain ⟨k', v'⟩ := e
    by_cases h : k' = k
    · subst h
      simp [mapSet, mapGet, List.find?]
    · simp only [mapSet, if_neg h]
      simp only [mapGet, List.find?] at ih ⊢
      have : (k' == k) = false := beq_false_of_ne h
      simp [this, ih]

/-- A record used in witnesses. -/
def demoRecord : DeprecationRecord :=
  ⟨strL "CustomAPI", strL "deprecated", some (strL "4.0"), none,
   some (strL "NewAPI"), none, none, strL "warning"⟩

/-- C9: deprecation lookups are case-insensitive in the queried name
(`isDeprecated` and `getDeprecationInfo` agree on any two names with the
same lowercasing); when a name is present in both tiers the
content-derived record is returned; and after `registerDeprecation(name,
record)` a lookup of the name in any letter case returns the registered
record. -/
theorem deprecation_lookup_c9 (st : DeprecationManagerState) (n q : Str)
    (rec : DeprecationRecord) (hn : n ≠ []) (hq : q ≠ [])
    (hlow : toLowerStr q = toLowerStr n) :
    (isDeprecated st q = isDeprecated st n
      ∧ getDeprecationInfo st q = getDeprecationInfo st n)
    ∧ (∀ r r', mapGet st.deprecations (toLowerStr n) = some r →
        mapGet knownDeprecations (toLowerStr n) = some r' →
        getDeprecationInfo st n = some r)
    ∧ getDeprecationInfo (registerDeprecation st n rec) q = some rec := by
  refine ⟨⟨?_, ?_⟩, ?_, ?_⟩
  · simp [isDeprecated, hn, hq, hlow]
  · simp [getDeprecationInfo, hn, hq, hlow]
  · intro r r' hr _
    simp [getDeprecationInfo, hn, hr, Option.orElse]
  · simp only [registerDeprecation, if_neg hn, getDeprecationInfo, if_neg hq,
      hlow, mapGet_mapSet, Option.orElse]

/-- Witness for C9 at a concrete manager state, name, case-variant query
and record. -/
theorem deprecation_lookup_c9_witness :
    (isDeprecated ⟨[]⟩ (strL "customapi") = isDeprecated ⟨[]⟩ (strL "CustomAPI")
      ∧ getDeprecationInfo ⟨[]⟩ (strL "customapi")
          = getDeprecationInfo ⟨[]⟩ (strL "CustomAPI"))
    ∧ (∀ r r',
        mapGet (DeprecationManagerState.mk []).deprecations
            (toLowerStr (strL "CustomAPI")) = some r →
        mapGet knownDeprecations (toLowerStr (strL "CustomAPI")) = some r' →
        getDeprecationInfo ⟨[]⟩ (strL "CustomAPI") = some r)
    ∧ getDeprecationInfo
        (registerDeprecation ⟨[]⟩ (strL "CustomAPI") demoRecord)
        (strL "customapi") = some demoRecord :=
  deprecation_lookup_c9 ⟨[]⟩ (strL "CustomAPI") (strL "customapi") demoRecord
    (by decide) (by decide) (by decide)

/-- C10: a category string outside the four documented values selects no
sections and `search` returns the empty list (no error, no fallback to
"all"). -/
theorem search_unknown_category_c10 (cfg : SearchConfig) (secs : Sections)
    (query cat : Str) (limit : Nat)
    (h : cat ∉ [strL "all", strL "api", strL "guides", strL "community"]) :
    sectionsToSearch secs cat = [] ∧ search cfg secs query cat limit = [] := by
  simp only [List.mem_cons, List.mem_singleton, not_or] at h
  obtain ⟨h1, h2, h3, h4⟩ := h
  have hsec : sectionsToSearch secs cat = [] := by
    simp [sectionsToSearch, h1, h2, h3, h4]
  refine ⟨hsec, ?_⟩
  simp [search, searchRaw, hsec, sortDesc]

/-- Witness for C10: the category `"ALL"` (wrong case) yields no
results. -/
theorem search_unknown_category_c10_witness :
    sectionsToSearch
        (parseDocumentation (strL "# docs-x\nfoo bar")) (strL "ALL") = []
      ∧ search modelConfig (parseDocumentation (strL "# docs-x\nfoo bar"))
          (strL "foo") (strL "ALL") 5 = [] :=
  search_unknown_category_c10 modelConfig
    (parseDocumentation (strL "# docs-x\nfoo bar")) (strL "foo") (strL "ALL") 5
    (by decide)

/-- Characters that are significant inside a regular-expression pattern.
`search` interpolates each raw query term into `new RegExp(term, "gi")`
(documentation-service.js 248); a term is only matched literally - as
`countOcc` models - when it contains none of these, and the lone
metacharacters `(`, `+`, `[` make the `RegExp` constructor itself throw a
`SyntaxError`. -/
def regexMetaChars : List Char :=
  ['\\', '^', '$', '.', '|', '?', '*', '+', '(', ')', '[', ']',
   braceOpen, braceClose]

/-- A term free of regular-expression metacharacters; only such terms
reach `new RegExp` safely and with literal-match semantics. -/
def regexSafeTerm (t : Str) : Bool := t.all (fun c => ¬ c ∈ regexMetaChars)

/-- C5: the query `"("` reaches the per-term scoring loop as the single
term `"("`, which is not a regular-expression-safe literal: on any scanned
item, `new RegExp("(", "gi")` throws a `SyntaxError` (unterminated group)
and `search` rejects instead of returning a list. -/
theorem search_regex_throw_c5 :
    searchTermsOf (strL "(") = [strL "("]
      ∧ regexSafeTerm (strL "(") = false := by decide

/-- Claim C1 reads the admission rule with DISTINCT matched query terms;
this counts them (the source instead uses the length of its `matchedTerms`
array, which also counts the whole-phrase entry and duplicate terms). -/
def distinctMatchedCount (query content : Str) : Nat :=
  (((searchTermsOf query).dedup).filter
    (fun t => decide (0 < countOcc t (toLowerStr content)))).length

/-- Counterexample to C1 as stated: for the query `"foo foo bar"` against
a one-item corpus containing `foo` five times and `bar` never, `search`
(with the modelled configuration) returns a result of score 20 - the
duplicated term makes `matchedTerms.length = 2` and passes the admission
rule - although only ONE distinct query term matched and 20 is below the
single-term floor 25. -/
theorem search_admission_c1_cex :
    (search modelConfig
        (parseDocumentation (strL "# docs-x\nfoo foo foo foo foo"))
        (strL "foo foo bar") (strL "all") 5).map
        (fun r => (r.score, r.matchedTerms)) = [(20, 2)]
      ∧ distinctMatchedCount (strL "foo foo bar")
          (strL "# docs-x\nfoo foo foo foo foo") = 1
      ∧ ¬ (2 ≤ distinctMatchedCount (strL "foo foo bar")
              (strL "# docs-x\nfoo foo foo foo foo")
            ∨ modelConfig.MIN_SCORE_SINGLE_TERM ≤ 20) := by decide

/-- Claim C3's hypothesis, following its words: every query term matched,
counting a whole-phrase match as satisfying all terms. -/
def specAllTermsSatisfied (query content : Str) : Prop :=
  containsSub (toLowerStr query) (toLowerStr content) = true
    ∨ ∀ t ∈ searchTermsOf query, 0 < countOcc t (toLowerStr content)

/-- Counterexample to C3 as stated: the item `"xx foo bar yy"` contains
the query `"foo bar"` verbatim - so every term is satisfied in the
claim's sense - yet the source's all-terms guard
`matchedTerms.length === searchTerms.length` fails (the phrase entry
makes the length 3, not 2) and the all-terms bonus is NOT added. -/
theorem search_all_terms_c3_cex :
    specAllTermsSatisfied (strL "foo bar") (strL "xx foo bar yy")
      ∧ allTermsBonusApplied (toLowerStr (strL "foo bar"))
          (searchTermsOf (strL "foo bar"))
          (toLowerStr (strL "xx foo bar yy")) = false := by
  constructor
  · exact Or.inl (by decide)
  · decide

/-! ## Sorting lemmas for `sortDesc` -/

/-- The descending comparator of documentation-service.js 307 as a
relation. -/
def scoreGe (a b : ScoredResult) : Prop := b.score ≤ a.score

/-- Inserting permutes. -/
theorem insertDesc_perm (r : ScoredResult) (l : List ScoredResult) :
    List.Perm (insertDesc r l) (r :: l) := by
  induction l with
  | nil => exact List.Perm.refl _
  | cons x xs ih =>
    simp only [insertDesc]
    by_cases h : r.score ≤ x.score
    · simp only [h, if_pos]
      exact (ih.cons x).trans (List.Perm.swap r x xs)
    · simp only [h, if_neg, not_false_eq_true]
      exact List.Perm.refl _

/-- The fold underlying `sortDesc` permutes. -/
theorem sortDescGo_perm (l : List ScoredResult) :
    ∀ acc, List.Perm (l.foldl (fun acc r => insertDesc r acc) acc) (acc ++ l) := by
  induction l with
  | nil => intro acc; simp
  | cons r rs ih =>
    intro acc
    simp only [List.foldl_cons]
    refine (ih (insertDesc r acc)).trans ?_
    refine (List.Perm.append_right rs (insertDesc_perm r acc)).trans ?_
    simpa using List.perm_middle.symm

/-- `sortDesc` permutes its input. -/
theorem sortDesc_perm (l : List ScoredResult) :
    List.Perm (sortDesc l) l := by
  simpa using sortDescGo_perm l []

/-- Inserting into a descending-sorted list keeps it sorted. -/
theorem insertDesc_sorted (r : ScoredResult) (l : List ScoredResult)
    (h : List.Sorted scoreGe l) : List.Sorted scoreGe (insertDesc r l) := by
  induction l with
  | nil => exact List.sorted_singleton r
  | cons x xs ih =>
    rw [List.sorted_cons] at h
    obtain ⟨hx, hxs⟩ := h
    simp only [insertDesc]
    by_cases hle : r.score ≤ x.score
    · simp only [hle, if_pos]
      rw [List.sorted_cons]
      refine ⟨?_, ih hxs⟩
      intro b hb
      have := (insertDesc_perm r xs).subset hb
      rcases List.mem_cons.mp this with rfl | hmem
      · exact hle
      · exact hx b hmem
    · simp only [hle, if_neg, not_false_eq_true]
      rw [List.sorted_cons]
      refine ⟨?_, List.sorted_cons.mpr ⟨hx, hxs⟩⟩
      intro b hb
      rcases List.mem_cons.mp hb with rfl | hmem
      · exact Nat.le_of_not_le hle
      · exact Nat.le_trans (hx b hmem) (Nat.le_of_not_le hle)

/-- The fold underlying `sortDesc` sorts. -/
theorem sortDescGo_sorted (l : List ScoredResult) :
    ∀ acc, List.Sorted scoreGe acc →
      List.Sorted scoreGe (l.foldl (fun acc r => insertDesc r acc) acc) := by
  induction l with
  | nil => intro acc h; exact h
  | cons r rs ih =>
    intro acc h
    exact ih (insertDesc r acc) (insertDesc_sorted r acc h)

/-- `sortDesc` sorts descending by score. -/
theorem sortDesc_sorted (l : List ScoredResult) :
    List.Sorted scoreGe (sortDesc l) :=
  sortDescGo_sorted l [] (List.sorted_nil)

/-- Inserting into a descending-sorted list places the new element after
every earlier element of equal score: on each score class the filter
appends. -/
theorem filter_insertDesc (r : ScoredResult) (l : List ScoredResult)
    (h : List.Sorted scoreGe l) (s : Nat) :
    (insertDesc r l).filter (fun x => x.score == s)
      = if r.score = s then
          (l.filter (fun x => x.score == s)) ++ [r]
        else l.filter (fun x => x.score == s) := by
  induction l with
  | nil =>
    simp only [insertDesc, List.filter_nil]
    by_cases hr : r.score = s
    · simp [List.filter, hr]
    · simp [List.filter, beq_false_of_ne hr, hr]
  | cons x xs ih =>
    rw [List.sorted_cons] at h
    obtain ⟨hx, hxs⟩ := h
    simp only [insertDesc]
    by_cases hle : r.score ≤ x.score
    · simp only [hle, if_pos, List.filter_cons]
      rw [ih hxs]
      by_cases hr : r.score = s
      · simp only [hr, if_pos]
        by_cases hxc : x.score = s
        · simp [hxc]
        · simp [hxc, beq_false_of_ne hxc]
      · simp only [hr, if_neg, not_false_eq_true]
    · simp only [hle, if_neg, not_false_eq_true]
      by_cases hr : r.score = s
      · have hxlt : x.score < r.score := Nat.lt_of_not_le hle
        have hnone : ∀ b ∈ x :: xs, (b.score == s) = false := by
          intro b hb
          rcases List.mem_cons.mp hb with rfl | hmem
          · exact beq_false_of_ne (by omega)
          · have hbx := hx b hmem
            simp only [scoreGe] at hbx
            exact beq_false_of_ne (by omega)
        have hfe : (x :: xs).filter (fun z => z.score == s) = [] := by
          apply List.filter_eq_nil_iff.mpr
          intro b hb
          simp [hnone b hb]
        simp [hr, List.filter_cons, hfe]
      · simp [List.filter_cons, beq_false_of_ne hr, hr]

/-- The fold underlying `sortDesc` preserves each score class, appending
the new elements in scan order. -/
theorem filter_sortDescGo (l : List ScoredResult) (s : Nat) :
    ∀ acc, List.Sorted scoreGe acc →
      (l.foldl (fun acc r => insertDesc r acc) acc).filter
          (fun x => x.score == s)
        = acc.filter (fun x => x.score == s)
            ++ l.filter (fun x => x.score == s) := by
  induction l with
  | nil => intro acc _; simp
  | cons r rs ih =>
    intro acc hacc
    simp only [List.foldl_cons]
    rw [ih (insertDesc r acc) (insertDesc_sorted r acc hacc)]
    rw [filter_insertDesc r acc hacc s]
    by_cases hr : r.score = s
    · simp [hr, List.filter_cons]
    · simp [hr, List.filter_cons, beq_false_of_ne hr]

/-- `sortDesc` is stable: each score class keeps the scan order. -/
theorem filter_sortDesc (l : List ScoredResult) (s : Nat) :
    (sortDesc l).filter (fun x => x.score == s)
      = l.filter (fun x => x.score == s) := by
  simpa using filter_sortDescGo l s [] List.sorted_nil

/-- Membership in the admitted-results list comes from an item whose
scored result it is. -/
theorem mem_searchRaw {cfg : SearchConfig} {secs : Sections}
    {query category : Str} {r : ScoredResult}
    (h : r ∈ searchRaw cfg secs query category) :
    ∃ name item, resultOfItem cfg name (searchTermsOf query)
        (toLowerStr query) item = some r := by
  simp only [searchRaw, List.mem_flatMap, List.mem_filterMap] at h
  obtain ⟨name, _, item, _, hitem⟩ := h
  exact ⟨name, item, hitem⟩

/-- A produced result satisfies the admission rule, recorded in its own
fields. -/
theorem resultOfItem_admitted {cfg : SearchConfig} {name : Str}
    {terms : List Str} {queryLower : Str} {item : Item} {r : ScoredResult}
    (h : resultOfItem cfg name terms queryLower item = some r) :
    cfg.MIN_SCORE ≤ r.score
      ∧ (2 ≤ r.matchedTerms ∨ cfg.MIN_SCORE_SINGLE_TERM ≤ r.score) := by
  simp only [resultOfItem] at h
  split at h
  · rename_i hcond
    obtain ⟨h1, h2⟩ := hcond
    cases h
    exact ⟨h1, h2⟩
  · cases h

/-- C1 (amended): for every configuration, corpus, query, category and
limit, every result returned by `search` has score at least the minimum
floor `MIN_SCORE`, and its matched-entry count - the length of the
source's `matchedTerms` array, which counts the whole-phrase entry and
duplicated query terms rather than distinct terms - is at least 2, or its
score alone meets the stricter single-term floor `MIN_SCORE_SINGLE_TERM`. -/
theorem search_admission_c1 (cfg : SearchConfig) (secs : Sections)
    (query category : Str) (limit : Nat) (r : ScoredResult)
    (h : r ∈ search cfg secs query category limit) :
    cfg.MIN_SCORE ≤ r.score
      ∧ (2 ≤ r.matchedTerms ∨ cfg.MIN_SCORE_SINGLE_TERM ≤ r.score) := by
  have h1 : r ∈ sortDesc (searchRaw cfg secs query category) :=
    List.take_subset limit _ h
  have h2 : r ∈ searchRaw cfg secs query category :=
    (sortDesc_perm _).subset h1
  obtain ⟨name, item, hres⟩ := mem_searchRaw h2
  exact resultOfItem_admitted hres

/-- Witness for C1 (amended) at a concrete corpus and query. -/
theorem search_admission_c1_witness :
    modelConfig.MIN_SCORE ≤
        ((search modelConfig (parseDocumentation (strL "# docs-x\nfoo bar"))
            (strL "foo bar") (strL "all") 5).headD
          ⟨[], [], 0, 0, 0⟩).score
      ∧ (2 ≤ ((search modelConfig
              (parseDocumentation (strL "# docs-x\nfoo bar"))
              (strL "foo bar") (strL "all") 5).headD
            ⟨[], [], 0, 0, 0⟩).matchedTerms
          ∨ modelConfig.MIN_SCORE_SINGLE_TERM ≤
              ((search modelConfig
                  (parseDocumentation (strL "# docs-x\nfoo bar"))
                  (strL "foo bar") (strL "all") 5).headD
                ⟨[], [], 0, 0, 0⟩).score) :=
  search_admission_c1 modelConfig
    (parseDocumentation (strL "# docs-x\nfoo bar"))
    (strL "foo bar") (strL "all") 5 _ (by decide)

/-- C2: for every configuration, corpus, query, category and limit, the
list returned by `search` is sorted by non-increasing score, and on every
score class it is a prefix of the admitted results in corpus scan order
(`searchRaw`) - equal-score results keep the order in which their items
were scanned (stable sort, then truncation). -/
theorem search_sorted_stable_c2 (cfg : SearchConfig) (secs : Sections)
    (query category : Str) (limit : Nat) :
    List.Sorted scoreGe (search cfg secs query category limit)
      ∧ ∀ s : Nat,
          (search cfg secs query category limit).filter
              (fun x => x.score == s)
            <+: (searchRaw cfg secs query category).filter
              (fun x => x.score == s) := by
  constructor
  · exact (sortDesc_sorted (searchRaw cfg secs query category)).sublist
      (List.take_sublist limit _)
  · intro s
    have htake := List.take_prefix limit
      (sortDesc (searchRaw cfg secs query category))
    have hpre : (search cfg secs query category limit).filter
          (fun x => x.score == s)
        <+: (sortDesc (searchRaw cfg secs query category)).filter
          (fun x => x.score == s) :=
      htake.filter _
    rwa [filter_sortDesc] at hpre

/-- C3 (amended): the all-terms bonus is applied exactly when every query
term occurs in the content AND the whole-phrase match did NOT occur - the
source's guard compares the `matchedTerms` length with the term count, and
a phrase hit pushes an extra entry, so a phrase match (which itself forces
every term to occur) always defeats the guard.  In particular an item
containing the full query verbatim never receives the all-terms bonus. -/
theorem search_all_terms_c3 (query content : Str) :
    allTermsBonusApplied (toLowerStr query) (searchTermsOf query)
        (toLowerStr content) = true
      ↔ (containsSub (toLowerStr query) (toLowerStr content) = false
          ∧ ∀ t ∈ searchTermsOf query, 0 < countOcc t (toLowerStr content)) := by
  have hterms : searchTermsOf query = splitWs (toLowerStr query) := rfl
  simp only [allTermsBonusApplied, matchedList, hterms]
  by_cases hc : containsSub (toLowerStr query) (toLowerStr content) = true
  · have hall : ∀ t ∈ splitWs (toLowerStr query),
        0 < countOcc t (toLowerStr content) := by
      intro t ht
      exact (countOcc_pos_iff t _).mpr
        (IsSub_trans (splitWs_sub ht) ((containsSub_iff _ _).mp hc))
    have hfe : (splitWs (toLowerStr query)).filter
          (fun t => decide (0 < countOcc t (toLowerStr content)))
        = splitWs (toLowerStr query) :=
      List.filter_eq_self.mpr (fun t ht => by simpa using hall t ht)
    simp only [hc, if_pos, hfe, List.singleton_append, List.length_cons,
      beq_iff_eq]
    constructor
    · intro hlen; exact absurd hlen (by omega)
    · rintro ⟨hfalse, _⟩
      cases hfalse
  · have hcf : containsSub (toLowerStr query) (toLowerStr content) = false := by
      simpa using hc
    simp only [hcf, Bool.false_eq_true, if_neg, not_false_eq_true,
      List.nil_append, beq_iff_eq]
    constructor
    · intro hlen
      refine ⟨trivial, ?_⟩
      have heq := (List.filter_sublist _).eq_of_length hlen
      intro t ht
      have := List.filter_eq_self.mp heq t ht
      simpa using this
    · rintro ⟨_, hall⟩
      rw [List.filter_eq_self.mpr (fun t ht => by simpa using hall t ht)]

/-- When every term occurs, every term records a position. -/
theorem termPositionsOf_length_of_all (terms : List Str) (cL : Str)
    (hall : ∀ t ∈ terms, 0 < countOcc t cL) :
    (termPositionsOf terms cL).length = terms.length := by
  induction terms with
  | nil => rfl
  | cons t ts ih =>
    have ht : 0 < countOcc t cL := hall t (List.mem_cons_self t ts)
    have hsome : (indexOfSub t cL).isSome = true :=
      (indexOfSub_isSome_iff t cL).mpr ((countOcc_pos_iff t cL).mp ht)
    obtain ⟨p, hp⟩ := Option.isSome_iff_exists.mp hsome
    simp only [termPositionsOf, List.filterMap_cons, ht, if_pos, hp,
      Option.map_some']
    simp only [termPositionsOf] at ih
    simp [ih (fun u hu => hall u (List.mem_cons_of_mem t hu))]

/-- C4 (amended, against the spec-modelled configuration): take a
multi-word query, an item A containing the full query verbatim and an
item B containing every query word but not the phrase, with the SAME
occurrence count of every term in both items, no term in either derived
title, and B's term positions spread at least the proximity threshold
apart.  Then A's relevance score strictly exceeds B's (A keeps the
exact-phrase bonus, B only the all-terms bonus with no proximity bonus),
so the descending sort of C2 ranks A above B. -/
theorem search_proximity_c4 (qL : Str) (terms : List Str)
    (contentA contentB titleA titleB : Str)
    (hA : containsSub qL contentA = true)
    (hB : containsSub qL contentB = false)
    (hocc : ∀ t ∈ terms,
      countOcc t contentA = countOcc t contentB ∧ 0 < countOcc t contentB)
    (htitle : ∀ t ∈ terms,
      containsSub t titleA = false ∧ containsSub t titleB = false)
    (hspread : modelConfig.PROXIMITY_THRESHOLD
        ≤ posSpread (termPositionsOf terms contentB)) :
    scoreOf modelConfig qL terms contentB titleB
      < scoreOf modelConfig qL terms contentA titleA := by
  have hsum : terms.map (termScore modelConfig titleB contentB)
      = terms.map (termScore modelConfig titleA contentA) := by
    apply List.map_congr_left
    intro t ht
    obtain ⟨hoc, hpos⟩ := hocc t ht
    obtain ⟨ht1, ht2⟩ := htitle t ht
    simp only [termScore, hoc, hpos, if_pos, ht1, ht2, Bool.false_eq_true,
      if_neg, not_false_eq_true]
  have hallA : ∀ t ∈ terms, 0 < countOcc t contentA := by
    intro t ht
    obtain ⟨hoc, hpos⟩ := hocc t ht
    omega
  have hallB : ∀ t ∈ terms, 0 < countOcc t contentB := fun t ht => (hocc t ht).2
  have hfA : terms.filter (fun t => decide (0 < countOcc t contentA)) = terms :=
    List.filter_eq_self.mpr (fun t ht => by simpa using hallA t ht)
  have hfB : terms.filter (fun t => decide (0 < countOcc t contentB)) = terms :=
    List.filter_eq_self.mpr (fun t ht => by simpa using hallB t ht)
  have hbonusA : allTermsBonusApplied qL terms contentA = false := by
    simp only [allTermsBonusApplied, matchedList, hA, if_pos, hfA,
      List.singleton_append, List.length_cons]
    simp [Nat.succ_ne_self]
  have hbonusB : allTermsBonusApplied qL terms contentB = true := by
    simp [allTermsBonusApplied, matchedList, hB, hfB]
  have hproxB : proximityBonus modelConfig (termPositionsOf terms contentB)
      = 0 := by
    simp only [proximityBonus]
    by_cases hlen : 1 < (termPositionsOf terms contentB).length
    · simp only [hlen, if_pos]
      have : ¬ posSpread (termPositionsOf terms contentB)
          < modelConfig.PROXIMITY_THRESHOLD := by omega
      simp [this]
    · simp [hlen]
  simp only [scoreOf, hA, if_pos, hB, Bool.false_eq_true, if_neg,
    not_false_eq_true, hbonusA, hbonusB, if_true, if_false, hsum, hproxB]
  have e1 : modelConfig.ALL_TERMS_BONUS = 25 := rfl
  have e2 : modelConfig.EXACT_PHRASE_BONUS = 30 := rfl
  omega

set_option maxRecDepth 4000 in
/-- Witness for C4 (amended): the query `"alpha beta"` against a verbatim
item and a scattered item with equal occurrence counts. -/
theorem search_proximity_c4_witness :
    scoreOf modelConfig (strL "alpha beta") [strL "alpha", strL "beta"]
        (strL "alpha " ++ List.replicate 100 'z' ++ strL " beta") (strL "t-b")
      < scoreOf modelConfig (strL "alpha beta") [strL "alpha", strL "beta"]
        (strL "alpha beta") (strL "t-a") :=
  search_proximity_c4 (strL "alpha beta") [strL "alpha", strL "beta"]
    (strL "alpha beta")
    (strL "alpha " ++ List.replicate 100 'z' ++ strL " beta")
    (strL "t-a") (strL "t-b")
    (by decide) (by decide) (by decide) (by decide) (by decide)

/-- The counterexample corpus for C4: section `g-one` holds the query
words verbatim and adjacent; section `g-two` holds the same words with
extra occurrences, spread beyond the proximity threshold. -/
def c4Text : Str :=
  strL "# g-one\nalpha beta\n# g-two\nalpha alpha alpha alpha "
    ++ List.replicate 80 'z' ++ strL " beta"

set_option maxRecDepth 8000 in
/-- Counterexample to C4 as stated: searching `"alpha beta"` over
`c4Text` ranks the scattered item (`g-two`, score 35 - its extra term
occurrences outweigh the exact-phrase bonus) ABOVE the adjacent verbatim
item (`g-one`, score 34). -/
theorem search_proximity_c4_cex :
    (search modelConfig (parseDocumentation c4Text) (strL "alpha beta")
        (strL "all") 5).map (fun r => (r.title, r.score))
      = [(strL "g-two", 35), (strL "g-one", 34)] ∧ (34 : Nat) < 35 := by
  constructor
  · decide
  · decide

/-! ## C6: cluster selection -/

/-- When no suffix beats the running density, the scan keeps the running
best. -/
theorem bestClusterGo_keep : ∀ (l : List Nat) (best d : Nat),
    (∀ j < l.length, clusterLen (l.drop j) ≤ d) →
    bestClusterGo best d l = best := by
  intro l
  induction l with
  | nil => intro best d _; rfl
  | cons p rest ih =>
    intro best d hall
    have hc : clusterLen (p :: rest) ≤ d := by
      have := hall 0 (by simp)
      simpa using this
    simp only [bestClusterGo]
    have hnot : ¬ d < 1 + (rest.takeWhile (fun q => q - p < 500)).length := by
      simp only [clusterLen] at hc
      omega
    simp only [hnot, if_neg, not_false_eq_true]
    refine ih best d ?_
    intro j hj
    have := hall (j + 1) (by simpa using Nat.succ_lt_succ hj)
    simpa using this

/-- When some suffix beats the running density, the scan returns the head
of the earliest suffix of maximal cluster size (which beats `d`). -/
theorem bestClusterGo_argmax : ∀ (l : List Nat) (best d : Nat),
    (∃ j, j < l.length ∧ d < clusterLen (l.drop j)) →
    ∃ i, i < l.length
      ∧ bestClusterGo best d l = (l.drop i).headD 0
      ∧ (∀ j < l.length, clusterLen (l.drop j) ≤ clusterLen (l.drop i))
      ∧ (∀ j < i, clusterLen (l.drop j) < clusterLen (l.drop i))
      ∧ d < clusterLen (l.drop i) := by
  intro l
  induction l with
  | nil =>
    rintro best d ⟨j, hj, _⟩
    exact absurd hj (by simp)
  | cons p rest ih =>
    rintro best d hex
    have hc : clusterLen (p :: rest) = 1 + (rest.takeWhile (fun q => q - p < 500)).length := rfl
    simp only [bestClusterGo]
    by_cases hdc : d < 1 + (rest.takeWhile (fun q => q - p < 500)).length
    · simp only [hdc, if_pos]
      by_cases hM : ∀ j < rest.length,
          clusterLen (rest.drop j) ≤ clusterLen (p :: rest)
      · rw [bestClusterGo_keep rest p _ (by
          intro j hj
          have := hM j hj
          rw [hc] at this
          exact this)]
        refine ⟨0, by simp, by simp, ?_, by omega, by rw [List.drop_zero, hc]; exact hdc⟩
        intro j hj
        cases j with
        | zero => simp
        | succ k =>
          have hk : k < rest.length := by simpa using hj
          have := hM k hk
          simpa using this
      · push_neg at hM
        obtain ⟨j0, hj0, hgt⟩ := hM
        obtain ⟨i, hi, heq, hmax, hstrict, hd⟩ :=
          ih p (1 + (rest.takeWhile (fun q => q - p < 500)).length)
            ⟨j0, hj0, by rw [← hc]; exact hgt⟩
        refine ⟨i + 1, by simpa using Nat.succ_lt_succ hi, by simpa using heq,
          ?_, ?_, ?_⟩
        · intro j hj
          cases j with
          | zero =>
            simp only [List.drop_zero, List.drop_succ_cons]
            rw [hc]
            exact Nat.le_of_lt hd
          | succ k =>
            have hk : k < rest.length := by simpa using hj
            simpa using hmax k hk
        · intro j hj
          cases j with
          | zero =>
            simp only [List.drop_zero, List.drop_succ_cons]
            rw [hc]
            exact hd
          | succ k =>
            have hk : k < i := by omega
            simpa using hstrict k hk
        · simp only [List.drop_succ_cons]
          omega
    · simp only [hdc, if_neg, not_false_eq_true]
      have hex' : ∃ j, j < rest.length ∧ d < clusterLen (rest.drop j) := by
        obtain ⟨j, hj, hgt⟩ := hex
        cases j with
        | zero =>
          rw [List.drop_zero, hc] at hgt
          exact absurd hgt hdc
        | succ k =>
          exact ⟨k, by simpa using hj, by simpa using hgt⟩
      obtain ⟨i, hi, heq, hmax, hstrict, hd⟩ := ih best d hex'
      refine ⟨i + 1, by simpa using Nat.succ_lt_succ hi, by simpa using heq,
        ?_, ?_, by simpa using hd⟩
      · intro j hj
        cases j with
        | zero =>
          simp only [List.drop_zero, List.drop_succ_cons]
          rw [hc]
          omega
        | succ k =>
          have hk : k < rest.length := by simpa using hj
          simpa using hmax k hk
      · intro j hj
        cases j with
        | zero =>
          simp only [List.drop_zero, List.drop_succ_cons]
          rw [hc]
          omega
        | succ k =>
          have hk : k < i := by omega
          simpa using hstrict k hk

/-- `bestClusterStart` returns the head of the earliest suffix of maximal
cluster size. -/
theorem bestClusterStart_argmax (ps : List Nat) (h : ps ≠ []) :
    ∃ i, i < ps.length
      ∧ bestClusterStart ps = (ps.drop i).headD 0
      ∧ (∀ j < ps.length, clusterLen (ps.drop j) ≤ clusterLen (ps.drop i))
      ∧ (∀ j < i, clusterLen (ps.drop j) < clusterLen (ps.drop i)) := by
  obtain ⟨p, rest, rfl⟩ := List.exists_cons_of_ne_nil h
  simp only [bestClusterStart]
  by_cases hM : ∀ j < (p :: rest).length, clusterLen ((p :: rest).drop j) ≤ 1
  · rw [bestClusterGo_keep (p :: rest) p 1 hM]
    refine ⟨0, by simp, by simp, ?_, by omega⟩
    intro j hj
    have h0 : 1 ≤ clusterLen ((p :: rest).drop 0) := by
      simp [clusterLen]
    have := hM j hj
    omega
  · push_neg at hM
    obtain ⟨j0, hj0, hgt⟩ := hM
    obtain ⟨i, hi, heq, hmax, hstrict, _⟩ :=
      bestClusterGo_argmax (p :: rest) p 1 ⟨j0, hj0, hgt⟩
    exact ⟨i, hi, heq, hmax, hstrict⟩

/-- C6 (amended): with hit positions present, the excerpt window is
anchored at the first hit of the cluster the source actually selects:
among the (position-sorted) hit suffixes, the earliest run of maximal
size, where a run counts the hits lying within the fixed distance 500 OF
THE RUN'S FIRST HIT (the source measures every gap from the anchor, not
between consecutive hits); the window spans from 150 before that anchor
to 400 after it, clipped to the content bounds. -/
theorem extract_excerpt_c6 (content : Str) (tps : List (Str × Nat))
    (h : tps ≠ []) :
    ∃ i, i < ((sortPosAsc tps).map Prod.snd).length
      ∧ bestClusterStart ((sortPosAsc tps).map Prod.snd)
          = (((sortPosAsc tps).map Prod.snd).drop i).headD 0
      ∧ (∀ j < ((sortPosAsc tps).map Prod.snd).length,
          clusterLen (((sortPosAsc tps).map Prod.snd).drop j)
            ≤ clusterLen (((sortPosAsc tps).map Prod.snd).drop i))
      ∧ (∀ j < i, clusterLen (((sortPosAsc tps).map Prod.snd).drop j)
            < clusterLen (((sortPosAsc tps).map Prod.snd).drop i))
      ∧ extractExcerptWindow content tps
          = some (bestClusterStart ((sortPosAsc tps).map Prod.snd) - 150,
              min content.length
                (bestClusterStart ((sortPosAsc tps).map Prod.snd) + 400)) := by
  have hlen : 0 < tps.length := List.length_pos.mpr h
  have hsps : ((sortPosAsc tps).map Prod.snd) ≠ [] := by
    have hperm : List.Perm (sortPosAsc tps) tps := by
      have : ∀ (l : List (Str × Nat)) acc,
          List.Perm (l.foldl (fun acc p => insertAscPos p acc) acc) (acc ++ l) := by
        intro l
        induction l with
        | nil => intro acc; simp
        | cons r rs ihl =>
          intro acc
          simp only [List.foldl_cons]
          refine (ihl (insertAscPos r acc)).trans ?_
          have hip : ∀ (m : List (Str × Nat)),
              List.Perm (insertAscPos r m) (r :: m) := by
            intro m
            induction m with
            | nil => exact List.Perm.refl _
            | cons x xs ihm =>
              simp only [insertAscPos]
              by_cases hle : x.2 ≤ r.2
              · simp only [hle, if_pos]
                exact (ihm.cons x).trans (List.Perm.swap r x xs)
              · simp only [hle, if_neg, not_false_eq_true]
                exact List.Perm.refl _
          refine (List.Perm.append_right rs (hip acc)).trans ?_
          simpa using List.perm_middle.symm
      simpa using this tps []
    have : (sortPosAsc tps).length = tps.length := hperm.length_eq
    simp only [ne_eq, List.map_eq_nil_iff]
    intro hcon
    rw [hcon] at this
    simp at this
    omega
  obtain ⟨i, hi, heq, hmax, hstrict⟩ :=
    bestClusterStart_argmax ((sortPosAsc tps).map Prod.snd) hsps
  refine ⟨i, hi, heq, hmax, hstrict, ?_⟩
  simp only [extractExcerptWindow, hlen, if_pos]

/-- Witness for C6 (amended) at one concrete hit list. -/
theorem extract_excerpt_c6_witness :
    ∃ i, i < ((sortPosAsc [((strL "a"), 5)]).map Prod.snd).length
      ∧ bestClusterStart ((sortPosAsc [((strL "a"), 5)]).map Prod.snd)
          = (((sortPosAsc [((strL "a"), 5)]).map Prod.snd).drop i).headD 0
      ∧ (∀ j < ((sortPosAsc [((strL "a"), 5)]).map Prod.snd).length,
          clusterLen (((sortPosAsc [((strL "a"), 5)]).map Prod.snd).drop j)
            ≤ clusterLen (((sortPosAsc [((strL "a"), 5)]).map Prod.snd).drop i))
      ∧ (∀ j < i,
          clusterLen (((sortPosAsc [((strL "a"), 5)]).map Prod.snd).drop j)
            < clusterLen (((sortPosAsc [((strL "a"), 5)]).map Prod.snd).drop i))
      ∧ extractExcerptWindow (strL "xyz") [((strL "a"), 5)]
          = some (bestClusterStart ((sortPosAsc [((strL "a"), 5)]).map Prod.snd) - 150,
              min (strL "xyz").length
                (bestClusterStart ((sortPosAsc [((strL "a"), 5)]).map Prod.snd) + 400)) :=
  extract_excerpt_c6 (strL "xyz") [((strL "a"), 5)] (by decide)

/-- Grouping worker for the claim's reading of a cluster: maximal runs
whose CONSECUTIVE gaps are below 500. -/
def consecRunsGo (cur : List Nat) (prev : Nat) : List Nat → List (List Nat)
  | [] => [cur.reverse]
  | q :: qs =>
    if q - prev < 500 then consecRunsGo (q :: cur) q qs
    else cur.reverse :: consecRunsGo [q] q qs

/-- The maximal consecutive-gap runs of a (sorted) position list, per the
claim's wording. -/
def consecRuns : List Nat → List (List Nat)
  | [] => []
  | p :: ps => consecRunsGo [p] p ps

/-- Earliest longest run. -/
def firstLongest : List (List Nat) → List Nat
  | [] => []
  | r :: rs =>
    let b := firstLongest rs
    if b.length ≤ r.length then r else b

/-- The anchor the claim describes: first hit of the run with the most
members under the consecutive-gap reading, ties to the earliest. -/
def specConsecAnchor (ps : List Nat) : Option Nat :=
  (firstLongest (consecRuns ps)).head?

/-- Counterexample to C6 as stated: on the sorted hits
`[0, 450, 900, 2000, 2100, 2200]` the consecutive-gap reading selects the
run starting at 0 (three members, earliest tie), but the source - which
measures every gap from the run's first hit - selects the cluster at
2000 and anchors the window at `2000 - 150 = 1850`, not at `0 - 150 = 0`. -/
theorem extract_excerpt_c6_cex :
    specConsecAnchor [0, 450, 900, 2000, 2100, 2200] = some 0
      ∧ extractExcerptWindow (List.replicate 2500 'x')
          [(strL "a", 0), (strL "a", 450), (strL "a", 900),
           (strL "a", 2000), (strL "a", 2100), (strL "a", 2200)]
          = some (1850, 2400)
      ∧ ((1850, 2400) : Nat × Nat)
          ≠ ((0 : Nat) - 150, min (List.replicate 2500 'x').length (0 + 400)) := by
  have hb : bestClusterStart
      ((sortPosAsc [((strL "a" : Str), (0 : Nat)), (strL "a", 450), (strL "a", 900),
        (strL "a", 2000), (strL "a", 2100), (strL "a", 2200)]).map Prod.snd)
      = 2000 := by decide
  refine ⟨by decide, ?_, ?_⟩
  · simp only [extractExcerptWindow, hb, List.length_replicate]
    norm_num
  · simp only [List.length_replicate, ne_eq, Prod.mk.injEq]
    norm_num

/-! ## C7: segmentation item counting -/

/-- Counterexample to C7 as stated: in the corpus
`"# sec\nA\n---\nB\n---\nC"` the section `sec` contains 2 separator lines
and no leading separator, so the claim predicts `1 + 2 - 0 = 3` items;
the parser produces 2 - the second separator arrives with only the single
content line `"B"` buffered, and the source requires MORE than one
buffered line (`currentContent.length > 1`) to close an item, so that
separator is swallowed into the item text instead. -/
theorem parse_items_c7_cex :
    (lookupSection (parseDocumentation (strL "# sec\nA\n---\nB\n---\nC"))
        (strL "sec")).map Item.content
      = [strL "# sec\nA", strL "B\n---\nC"]
    ∧ ((splitLines (strL "A\n---\nB\n---\nC")).filter isSepLine).length = 2
    ∧ ((splitLines (strL "A\n---\nB\n---\nC")).takeWhile isSepLine).length = 0
    ∧ (2 : Nat) ≠ 1 + 2 - 0 := by decide

/-- C7's amended counting rule, computed directly from a section's body
lines (the lines after its header): walk the lines keeping the buffered
line count, which starts at 1 because the header line itself is buffered
as the first item's first line; a separator line closes an item exactly
when MORE than one line is buffered (a non-closing separator is itself
buffered); one further item is flushed at the end when any lines remain
buffered. -/
def specItemCount (buffered : Nat) : List Str → Nat
  | [] => if 0 < buffered then 1 else 0
  | l :: ls =>
    if isSepLine l ∧ 1 < buffered then 1 + specItemCount 0 ls
    else specItemCount (buffered + 1) ls

/-- Appending an item to a section appends to its lookup. -/
theorem lookupSection_pushItem (secs : Sections) (n : Str) (it : Item) :
    lookupSection (pushItem secs n it) n = lookupSection secs n ++ [it] := by
  induction secs with
  | nil => simp [pushItem, lookupSection, List.find?]
  | cons e rest ih =>
    obtain ⟨k, items⟩ := e
    by_cases h : k = n
    · subst h
      simp [pushItem, lookupSection, List.find?]
    · simp only [pushItem, if_neg h]
      have hbeq : (k == n) = false := beq_false_of_ne h
      simp only [lookupSection, List.find?, hbeq] at ih ⊢
      exact ih

/-- The section-name list after a push: unchanged for an existing name,
extended by the new name otherwise. -/
theorem keys_pushItem (secs : Sections) (n : Str) (it : Item) :
    (pushItem secs n it).map Prod.fst
      = if n ∈ secs.map Prod.fst then secs.map Prod.fst
        else secs.map Prod.fst ++ [n] := by
  induction secs with
  | nil => simp [pushItem]
  | cons e rest ih =>
    obtain ⟨k, items⟩ := e
    by_cases hk : k = n
    · subst hk
      simp [pushItem]
    · rw [show pushItem ((k, items) :: rest) n it
          = (k, items) :: pushItem rest n it from by simp [pushItem, hk]]
      simp only [List.map_cons, ih]
      by_cases hmem : n ∈ rest.map Prod.fst
      · simp [hmem]
      · have hnk : n ∉ (k :: rest.map Prod.fst) := by
          simp only [List.mem_cons, not_or]
          exact ⟨fun h => hk h.symm, hmem⟩
        simp [hmem, hnk]

/-- Pushing preserves distinctness of section names. -/
theorem nodup_keys_pushItem (secs : Sections) (n : Str) (it : Item)
    (h : (secs.map Prod.fst).Nodup) :
    ((pushItem secs n it).map Prod.fst).Nodup := by
  rw [keys_pushItem]
  by_cases hmem : n ∈ secs.map Prod.fst
  · simp only [hmem, if_pos]
    exact h
  · simp only [hmem, if_neg, not_false_eq_true]
    have hperm : List.Perm (secs.map Prod.fst ++ [n]) (n :: secs.map Prod.fst) :=
      List.perm_append_singleton n _
    exact hperm.nodup_iff.mpr (List.nodup_cons.mpr ⟨hmem, h⟩)

/-- The sections after one loop step: unchanged, or with one item pushed
onto the current section. -/
theorem parseStep_sections (st : ParseState) (i : Nat) (line : Str) :
    (parseStep st i line).sections = st.sections
      ∨ ∃ it, (parseStep st i line).sections
          = pushItem st.sections st.sectionName it := by
  by_cases h1 : isHeaderLine line = true
  · cases hcs : st.currentSection with
    | none =>
      left
      simp [parseStep, h1, hcs]
    | some start =>
      by_cases h2 : st.currentContent.length > 0
      · right
        exact ⟨⟨joinNl st.currentContent, start⟩, by simp [parseStep, h1, hcs, h2]⟩
      · left
        simp [parseStep, h1, hcs, h2]
  · by_cases h2 : isSepLine line ∧ st.currentContent.length > 1
        ∧ st.currentSection.isSome
    · obtain ⟨hs1, hs2, hs3⟩ := h2
      obtain ⟨start, hcs⟩ := Option.isSome_iff_exists.mp hs3
      right
      refine ⟨⟨joinNl st.currentContent, start⟩, ?_⟩
      simp [parseStep, h1, hcs, hs1, hs2]
    · left
      by_cases h3 : st.currentSection.isSome
      · have h2' : ¬ (isSepLine line = true ∧ st.currentContent.length > 1) := by
          intro hc
          exact h2 ⟨hc.1, hc.2, h3⟩
        simp [parseStep, h1, h2', h3]
      · simp [parseStep, h1, h3]

/-- The line loop preserves distinctness of section names. -/
theorem nodup_keys_parseGo : ∀ (lines : List Str) (st : ParseState) (i : Nat),
    (st.sections.map Prod.fst).Nodup →
    ((parseGo st i lines).sections.map Prod.fst).Nodup := by
  intro lines
  induction lines with
  | nil => intro st i h; exact h
  | cons l ls ih =>
    intro st i h
    refine ih (parseStep st i l) (i + 1) ?_
    rcases parseStep_sections st i l with heq | ⟨it, heq⟩
    · rw [heq]; exact h
    · rw [heq]; exact nodup_keys_pushItem _ _ _ h

/-- C7, first conjunct: the parsed sections map has pairwise-distinct
names - every item lies in the unique entry of its section. -/
theorem nodup_keys_parse (text : Str) :
    ((parseDocumentation text).map Prod.fst).Nodup := by
  have hgo := nodup_keys_parseGo (splitLines text) ⟨[], [], none, []⟩ 0 (by simp)
  simp only [parseDocumentation, parseFinish]
  cases hcs : (parseGo ⟨[], [], none, []⟩ 0 (splitLines text)).currentSection with
  | none => exact hgo
  | some start =>
    by_cases h2 : (parseGo ⟨[], [], none, []⟩ 0 (splitLines text)).currentContent.length > 0
    · simp only [h2, if_pos]
      exact nodup_keys_pushItem _ _ _ hgo
    · simp only [h2, if_neg, not_false_eq_true]
      exact hgo

/-- Running the loop over header-free body lines adds exactly
`specItemCount` items to the current section. -/
theorem parseGo_count (name : Str) : ∀ (body : List Str),
    (∀ l ∈ body, isHeaderLine l = false) →
    ∀ (secs : Sections) (i start : Nat) (buf : List Str),
      (lookupSection
          (parseFinish (parseGo ⟨secs, name, some start, buf⟩ i body))
          name).length
        = (lookupSection secs name).length + specItemCount buf.length body := by
  intro body
  induction body with
  | nil =>
    intro _ secs i start buf
    simp only [parseGo, parseFinish, specItemCount]
    by_cases h : buf.length > 0
    · simp only [h, if_pos, lookupSection_pushItem, List.length_append,
        List.length_singleton]
    · have : buf.length = 0 := by omega
      simp [h, this]
  | cons l ls ih =>
    intro hbody secs i start buf
    have hl : isHeaderLine l = false := hbody l (List.mem_cons_self l ls)
    have hls : ∀ m ∈ ls, isHeaderLine m = false :=
      fun m hm => hbody m (List.mem_cons_of_mem l hm)
    by_cases hsep : isSepLine l ∧ buf.length > 1
    · have hstep : parseStep ⟨secs, name, some start, buf⟩ i l
          = ⟨pushItem secs name ⟨joinNl buf, start⟩, name, some (i + 1), []⟩ := by
        simp [parseStep, hl, hsep.1, hsep.2]
      have hcount : specItemCount buf.length (l :: ls)
          = 1 + specItemCount 0 ls := by
        simp [specItemCount, hsep.1, hsep.2]
      simp only [parseGo, hstep, hcount]
      have hih := ih hls
        (pushItem secs name ⟨joinNl buf, start⟩) (i + 1) (i + 1) []
      simp only [List.length_nil] at hih
      rw [hih, lookupSection_pushItem]
      simp only [List.length_append, List.length_singleton]
      omega
    · have hstep : parseStep ⟨secs, name, some start, buf⟩ i l
          = ⟨secs, name, some start, buf ++ [l]⟩ := by
        simp only [parseStep, hl, Bool.false_eq_true, if_neg,
          not_false_eq_true]
        have hns : ¬ (isSepLine l = true ∧
            (⟨secs, name, some start, buf⟩ : ParseState).currentContent.length > 1
            ∧ (⟨secs, name, some start, buf⟩ : ParseState).currentSection.isSome = true) := by
          intro hc
          exact hsep ⟨hc.1, hc.2.1⟩
        rw [if_neg hns]
        simp
      have hcount : specItemCount buf.length (l :: ls)
          = specItemCount (buf.length + 1) ls := by
        simp [specItemCount, hsep]
      simp only [parseGo, hstep, hcount]
      have hih := ih hls secs (i + 1) start (buf ++ [l])
      simpa using hih

/-- C7 (amended): section names are pairwise distinct (every item lies in
exactly one section's entry), and for a corpus of one section header
followed by header-free body lines, the number of items in that section
equals the amended count `specItemCount`: one item per separator that
closed - a separator closes exactly when MORE than one line is buffered,
the header line counting toward the first item's buffer and a non-closing
separator being buffered itself - plus a final item when lines remain
buffered at the end of the corpus. -/
theorem parse_items_c7 (text hl : Str) (body : List Str)
    (hsplit : splitLines text = hl :: body)
    (hhl : isHeaderLine hl = true)
    (hbody : ∀ l ∈ body, isHeaderLine l = false) :
    (∀ t : Str, ((parseDocumentation t).map Prod.fst).Nodup)
      ∧ (lookupSection (parseDocumentation text)
          (trimStr (hl.drop 2))).length = specItemCount 1 body := by
  refine ⟨nodup_keys_parse, ?_⟩
  have hstep : parseStep ⟨[], [], none, []⟩ 0 hl
      = ⟨[], trimStr (hl.drop 2), some 0, [hl]⟩ := by
    simp [parseStep, hhl]
  simp only [parseDocumentation, hsplit, parseGo, hstep]
  have := parseGo_count (trimStr (hl.drop 2)) body hbody [] 1 0 [hl]
  simp only [List.length_singleton] at this
  rw [this]
  simp [lookupSection, List.find?]

/-- Witness for C7 (amended) at the counterexample corpus: the amended
count yields the parser's 2 items. -/
theorem parse_items_c7_witness :
    (∀ t : Str, ((parseDocumentation t).map Prod.fst).Nodup)
      ∧ (lookupSection (parseDocumentation (strL "# sec\nA\n---\nB\n---\nC"))
          (trimStr ((strL "# sec").drop 2))).length
        = specItemCount 1
            [strL "A", strL "---", strL "B", strL "---", strL "C"] :=
  parse_items_c7 (strL "# sec\nA\n---\nB\n---\nC") (strL "# sec")
    [strL "A", strL "---", strL "B", strL "---", strL "C"]
    (by decide) (by decide) (by decide)

/-! ## C8: best-practice morphology round trip -/

/-- A corpus whose single community document contains only the singular
"component", but whose only matching line is a structured-record line
(it starts with a brace). -/
def c8CexText : Str :=
  strL "# community-bloggers\n\x7b \"component\": true \x7d best practice recommended"

/-- Counterexample to C8 as stated: the candidate pool contains a document
with only the singular form "component" (and matching succeeds for both
topics), yet BOTH `getBestPractices("component")` and
`getBestPractices("components")` return nothing - the document's only
topical line starts with `{`, so the focused extraction yields empty
content and the candidate is dropped (documentation-service.js 661-670). -/
theorem best_practices_c8_cex :
    ((bpCandidatePool (parseDocumentation c8CexText)).map
        (fun d => (containsSub (strL "component") (toLowerStr d.content),
          containsSub (strL "components") (toLowerStr d.content))))
        = [(true, false)]
      ∧ (bpCandidatePool (parseDocumentation c8CexText)).map
          (fun d => (bpTermMatches (toLowerStr d.content) (strL "component"),
            bpTermMatches (toLowerStr d.content) (strL "components")))
        = [(true, true)]
      ∧ getBestPractices (parseDocumentation c8CexText) (strL "component") = []
      ∧ getBestPractices (parseDocumentation c8CexText) (strL "components") = [] := by
  refine ⟨by decide, by decide, by decide, by decide⟩

/-- The claim's own example corpus, singular form only. -/
def c8SingText : Str :=
  strL "# community-bloggers\nBest practice for component architecture is recommended"

/-- The symmetric corpus, plural form only. -/
def c8PlurText : Str :=
  strL "# community-bloggers\nBest practices for components are recommended"

/-- C8 (amended): topic-term matching succeeds when the literal term, its
singular form, or its plural form occurs in the lowercased content, so -
provided the matching document also survives extraction, deduplication and
the result cap - the singular and the plural topic both find it: on the
claim's example corpus containing only "component", both
`getBestPractices("component")` and `getBestPractices("components")`
return that document, and symmetrically on the plural-only corpus. -/
theorem best_practices_c8 :
    ((getBestPractices (parseDocumentation c8SingText)
          (strL "component")).map (fun p => p.title)
        = [strL "community-bloggers"]
      ∧ (getBestPractices (parseDocumentation c8SingText)
          (strL "components")).map (fun p => p.title)
        = [strL "community-bloggers"])
    ∧ ((getBestPractices (parseDocumentation c8PlurText)
          (strL "component")).map (fun p => p.title)
        = [strL "community-bloggers"]
      ∧ (getBestPractices (parseDocumentation c8PlurText)
          (strL "components")).map (fun p => p.title)
        = [strL "community-bloggers"]) := by
  refine ⟨⟨by decide, by decide⟩, by decide, by decide⟩
